import Mathlib

/-!
# Verification of the nostr-social-graph collection and analytics pipeline

Shallow embedding of the breadth-first graph collector and the analytics
passes of `useWebOfTrust` (src/unnamed/part_002), the `useSocialGraph`
hook (src/src/hooks/useSocialGraph.ts) and its `parseContactList` helper.

Modelling conventions:
* JS `Map` objects become association lists (`List (String × α)`):
  `Map.set` updates an existing key in place (keeping its insertion
  position) or appends a fresh binding, matching JS `Map` iteration order.
* JS `Set` objects become duplicate-free lists (`sadd` inserts only when
  absent, at the back, matching insertion order).
* JS numbers are modelled by `ℚ` (all arithmetic performed by the hooks on
  node values is far from any binary-rounding boundary).
* Contact-list records (kind 3 events) carry their tags as
  `(tagName, tagValue)` pairs, following the fetcher interface of the
  spec (§6); `parseContactList`, whose whole point is robustness against
  malformed tags, is additionally modelled on raw `List String` tags.
* The relay pool is modelled as a finite database `db : List NEvent`,
  ordered most-recent-first; per the source comment
  "Only get most recent per author", an authors-scoped query returns the
  most recent record of each queried author.
* Async `while` loops become fuel-indexed recursion; the fuel actually
  needed is computed from an explicit termination measure and proved
  sufficient.
* The collector state carries two ghost fields (`enqTrace`, `batchTrace`)
  that record which identities were enqueued and which batches were
  dequeued; they influence nothing and only let temporal properties of
  the traversal be stated.
-/

/-- Association-list lookup, first binding wins (JS `Map.get`). -/
def mget {α : Type} (m : List (String × α)) (k : String) : Option α :=
  (m.find? (fun p => p.1 == k)).map Prod.snd

/-- JS `Map.has`. -/
def mhas {α : Type} (m : List (String × α)) (k : String) : Bool :=
  m.any (fun p => p.1 == k)

/-- JS `Map.set`: update an existing binding in place (keeping its
position in iteration order) or append a fresh one. -/
def mset {α : Type} (m : List (String × α)) (k : String) (v : α) :
    List (String × α) :=
  if mhas m k then m.map (fun p => if p.1 == k then (p.1, v) else p)
  else m ++ [(k, v)]

/-- Mutation of the value stored under a key (no-op when absent). -/
def mupdate {α : Type} (m : List (String × α)) (k : String) (f : α → α) :
    List (String × α) :=
  m.map (fun p => if p.1 == k then (p.1, f p.2) else p)

/-- JS `Set.add`: insert only when absent, at the back. -/
def sadd (s : List String) (x : String) : List String :=
  if x ∈ s then s else s ++ [x]

/-- Mutate the first element of a list satisfying the test
(JS `array.find` followed by in-place mutation of the found object). -/
def updateFirst (l : List α) (test : α → Bool) (f : α → α) : List α :=
  match l with
  | [] => []
  | a :: rest => if test a then f a :: rest else a :: updateFirst rest test f

/-- A kind 3 (contact list) event as delivered by the fetcher; tags are
`(tagName, tagValue)` pairs per the fetcher interface. -/
structure NEvent where
  pubkey : String
  created_at : Nat
  tags : List (String × String)
deriving Repr, DecidableEq

/-- The unscoped query `[{kinds: [3], limit}]`: up to `limit` recent
events; the database is ordered most-recent-first. -/
def queryRecent (db : List NEvent) (limit : Nat) : List NEvent :=
  db.take limit

/-- The most recent event of one author (ties keep the earlier-listed
event). -/
def latestByAuthor (db : List NEvent) (a : String) : Option NEvent :=
  db.foldl (fun acc e =>
    if e.pubkey == a then
      match acc with
      | none => some e
      | some b => if b.created_at < e.created_at then some e else acc
    else acc) none

/-- The authors-scoped query `[{kinds: [3], authors, limit: 1}]`;
per the source comment it returns the most recent record per author. -/
def queryAuthors (db : List NEvent) (pubkeys : List String) : List NEvent :=
  pubkeys.filterMap (latestByAuthor db)

/-- The authors-scoped query of useSocialGraph's level loop
(`[{kinds: [3], authors: currentLevel}]`, no limit): every matching
event. -/
def queryAuthorsAll (db : List NEvent) (pubkeys : List String) : List NEvent :=
  db.filter (fun e => e.pubkey ∈ pubkeys)

/-- Graph node of useWebOfTrust (src/unnamed/part_002). -/
structure GraphNode where
  id : String
  val : ℚ
  inDegree : Nat
  outDegree : Nat
  isHub : Bool
  cluster : Option Nat := none
  degreesFromRoot : Option Nat := none
deriving Repr, DecidableEq

/-- Graph link of useWebOfTrust. -/
structure GraphLink where
  source : String
  target : String
  isBidirectional : Bool
deriving Repr, DecidableEq

/-- The stats block of the snapshot. -/
structure GraphStats where
  totalNodes : Nat
  totalLinks : Nat
  hubs : Nat
  bidirectionalLinks : Nat
  clusters : Nat
deriving Repr, DecidableEq

/-- The snapshot `GraphData` handed to the presentation layer. -/
structure GraphData where
  nodes : List GraphNode
  links : List GraphLink
  stats : GraphStats
deriving Repr, DecidableEq

/-- Collector state of useWebOfTrust's queryFn: the four mutable
collections, plus two ghost trace fields (`enqTrace` records every pubkey
pushed onto `toProcess` by the frontier loop, `batchTrace` records every
batch the loop dequeues). -/
structure CState where
  nodesMap : List (String × GraphNode)
  linksMap : List (String × GraphLink)
  processed : List String
  toProcess : List (String × Nat)
  enqTrace : List String
  batchTrace : List (List (String × Nat))
deriving Repr, DecidableEq

/-- The link-id key `` `${source}->${target}` ``. -/
def linkKey (l : GraphLink) : String := l.source ++ "->" ++ l.target

/-- The reverse link-id key `` `${target}->${source}` ``. -/
def revKey (l : GraphLink) : String := l.target ++ "->" ++ l.source

/-- The body of `for (const followedPubkey of followedPubkeys)`
(src/unnamed/part_002 lines 128-158): dedupe-insert the edge, then
either bump the existing target node's importance (capped at 20) or
create the target node and, if within depth and not processed, enqueue
it for the next level. -/
def processFollow (depth currentLevel : Nat) (author : String)
    (st : CState) (fp : String) : CState :=
  let linkId := author ++ "->" ++ fp
  let newLink : GraphLink := { source := author, target := fp, isBidirectional := false }
  let st1 :=
    if mhas st.linksMap linkId then st
    else { st with linksMap := mset st.linksMap linkId newLink }
  if mhas st1.nodesMap fp then
    { st1 with nodesMap := mupdate st1.nodesMap fp (fun n => { n with val := min (n.val + 1) 20 }) }
  else
    let newNode : GraphNode := { id := fp, val := 3, inDegree := 0, outDegree := 0, isHub := false }
    let st2 := { st1 with nodesMap := mset st1.nodesMap fp newNode }
    if currentLevel + 1 < depth ∧ fp ∉ st2.processed then
      { st2 with toProcess := st2.toProcess ++ [(fp, currentLevel + 1)],
                 enqTrace := st2.enqTrace ++ [fp] }
    else st2

/-- Processing of one fetched event (lines 119-159): mark its author
processed, extract the p-tag targets, and fold `processFollow` over
them. -/
def processEvent (depth currentLevel : Nat) (st : CState) (ev : NEvent) :
    CState :=
  let st1 := { st with processed := sadd st.processed ev.pubkey }
  let followedPubkeys := (ev.tags.filter (fun t => t.1 == "p")).map Prod.snd
  followedPubkeys.foldl (processFollow depth currentLevel ev.pubkey) st1

/-- One iteration of the frontier loop (lines 101-160): splice off a
batch of up to 50 entries, read the level off the batch head, and either
skip the batch (level ≥ depth: mark processed only) or fetch and process
its contact lists. -/
def stepBatch (db : List NEvent) (depth : Nat) (st : CState) : CState :=
  let batch := st.toProcess.take 50
  let rest := st.toProcess.drop 50
  let pubkeys := batch.map Prod.fst
  let currentLevel := (st.toProcess.head?.map Prod.snd).getD 0
  let st1 := { st with toProcess := rest, batchTrace := st.batchTrace ++ [batch] }
  if depth ≤ currentLevel then
    { st1 with processed := pubkeys.foldl sadd st1.processed }
  else
    (queryAuthors db pubkeys).foldl (processEvent depth currentLevel) st1

/-- Fuel-indexed frontier loop; `none` means the fuel ran out before the
frontier emptied. -/
def collectLoop (db : List NEvent) (depth : Nat) :
    Nat → CState → Option CState
  | 0, st => if st.toProcess.isEmpty then some st else none
  | fuel + 1, st =>
      if st.toProcess.isEmpty then some st
      else collectLoop db depth fuel (stepBatch db depth st)

/-- Every pubkey appearing as a p-tag value anywhere in the database
(deduplicated); only these can ever be inserted as fresh nodes by the
loop. -/
def dbTargets (db : List NEvent) : List String :=
  ((db.map (fun e => (e.tags.filter (fun t => t.1 == "p")).map Prod.snd)).flatten).dedup

/-- Termination measure of the frontier loop: queue length plus the
number of potential fresh nodes not yet present. -/
def collectMeasure (db : List NEvent) (st : CState) : Nat :=
  st.toProcess.length +
    ((dbTargets db).filter (fun p => ¬ mhas st.nodesMap p)).length

/-- The frontier loop run to completion with provably-sufficient fuel. -/
def collectRun (db : List NEvent) (depth : Nat) (st : CState) : CState :=
  (collectLoop db depth (collectMeasure db st + 1) st).getD st

/-- Collector initial state when a start pubkey is given (lines 67-76). -/
def initRoot (r : String) : CState :=
  { nodesMap := [(r, { id := r, val := 10, inDegree := 0, outDegree := 0, isHub := false })]
    linksMap := []
    processed := []
    toProcess := [(r, 0)]
    enqTrace := []
    batchTrace := [] }

/-- Collector initial state in global mode (lines 79-98): seed the
frontier with the authors of recent kind 3 events.  The dedup guard in
the source tests the (still empty) `processed` set, so it is kept but
never fires. -/
def initGlobal (db : List NEvent) (limit : Nat) : CState :=
  (queryRecent db limit).foldl
    (fun st ev =>
      if ev.pubkey ∈ st.processed then st
      else
        let seedNode : GraphNode :=
          { id := ev.pubkey, val := 5, inDegree := 0, outDegree := 0, isHub := false }
        { st with toProcess := st.toProcess ++ [(ev.pubkey, 0)],
                  nodesMap := mset st.nodesMap ev.pubkey seedNode })
    { nodesMap := [], linksMap := [], processed := [], toProcess := [],
      enqTrace := [], batchTrace := [] }

/-- The degree pass (lines 175-184): for every link bump `outDegree` on
its source node and `inDegree` on its target node (missing nodes are
skipped by the `if (node)` guards, which `mupdate`'s no-op on absent
keys models). -/
def degreePass (nodesMap : List (String × GraphNode)) (links : List GraphLink) :
    List (String × GraphNode) :=
  links.foldl
    (fun m l =>
      let m1 := mupdate m l.source (fun n => { n with outDegree := n.outDegree + 1 })
      mupdate m1 l.target (fun n => { n with inDegree := n.inDegree + 1 }))
    nodesMap

/-- The bidirectionality marking (lines 186-191).  In the source the
`links` array aliases the `linksMap` values, and iterating link `l`
sets `isBidirectional` both on `l` (when `linksMap` has `l`'s reverse
key) and, through the map, on the entry stored under that reverse key.
Since the truth of the `linksMap.has` test never depends on the flags,
the final flag of `l` is: its initial flag, or `l`'s reverse key is
some link's key (mark received iterating `l` itself), or `l`'s key is
some link's reverse key (mark received through the map while iterating
that other link). -/
def bidirMark (links : List GraphLink) (l : GraphLink) : GraphLink :=
  { l with isBidirectional :=
      l.isBidirectional
        || links.any (fun l2 => linkKey l2 == revKey l)
        || links.any (fun l2 => revKey l2 == linkKey l) }

def bidirPass (links : List GraphLink) : List GraphLink :=
  links.map (bidirMark links)

/-- Hub detection and visual-importance recomputation (lines 194-209).
When the node list is empty the source's `avgDegree` is `NaN` and the
`forEach` does nothing; `ℚ`'s `x / 0 = 0` convention is then equally
vacuous. -/
def hubPass (nodes : List GraphNode) : List GraphNode :=
  let avgDegree : ℚ :=
    (nodes.foldl (fun s n => s + (n.inDegree : ℚ) + (n.outDegree : ℚ)) 0) /
      (nodes.length : ℚ)
  let hubThreshold : ℚ := avgDegree * 2
  nodes.map (fun n =>
    let totalDegree : ℚ := (n.inDegree : ℚ) + (n.outDegree : ℚ)
    let hub : Bool := decide (hubThreshold ≤ totalDegree) && decide ((10 : ℚ) ≤ totalDegree)
    let newVal : ℚ :=
      if hub then max n.val (15 + min (totalDegree / 5) 15)
      else max n.val (3 + min (totalDegree / 2) 7)
    { n with isHub := hub, val := newVal })

/-- Model of `adjacency.get(k)?.add(v)`: extend the neighbour set stored under an
existing key; no-op when the key is absent. -/
def adjAdd (m : List (String × List String)) (k v : String) :
    List (String × List String) :=
  if mhas m k then m.map (fun p => if p.1 == k then (p.1, if v ∈ p.2 then p.2 else p.2 ++ [v]) else p)
  else m

/-- The undirected adjacency map built by both `assignClusters`
(lines 246-255) and `calculateDegreesOfSeparation` (lines 304-313):
an empty set per node, then each link added in both directions. -/
def adjBuild (nodes : List GraphNode) (links : List GraphLink) :
    List (String × List String) :=
  let base := nodes.foldl (fun m n => mset m n.id []) []
  links.foldl (fun m l => adjAdd (adjAdd m l.source l.target) l.target l.source) base

/-- State of the clustering pass; `trace` is a ghost record of the
`(node, cluster)` assignments in the order they are made. -/
structure ClusterSt where
  nodes : List GraphNode
  visited : List String
  clusterId : Nat
  trace : List (String × Nat)
deriving Repr

/-- Visit one node: mark it visited and label it with the current
cluster id (the label lands on the first — by uniqueness of ids, the —
node object with that id, as `nodes.find` does in the source). -/
def clusterVisit (cid : Nat) (cs : ClusterSt) (id : String) : ClusterSt :=
  { cs with visited := sadd cs.visited id,
            nodes := updateFirst cs.nodes (fun n => n.id == id)
              (fun n => { n with cluster := some cid }),
            trace := cs.trace ++ [(id, cid)] }

/-- One depth level of the bounded BFS inside `assignClusters`
(lines 272-288): process every queued id, visiting each yet-unvisited
neighbour that denotes an existing node, and collect the next level. -/
def clusterRound (adj : List (String × List String)) (cid : Nat)
    (start : ClusterSt × List String) (queue : List String) :
    ClusterSt × List String :=
  queue.foldl
    (fun acc cur =>
      let nbs := (mget adj cur).getD []
      nbs.foldl
        (fun acc2 nb =>
          if ((acc2.1.nodes.find? (fun n => n.id == nb)).isSome ∧ nb ∉ acc2.1.visited) then
            (clusterVisit cid acc2.1 nb, acc2.2 ++ [nb])
          else acc2)
        acc)
    start

/-- The outer `nodes.forEach` body of `assignClusters` (lines 261-292):
an unvisited node seeds a fresh cluster and two bounded BFS rounds
(the `maxDepth = 2` cap) label its ≤ 2-hop region. -/
def clusterSeed (adj : List (String × List String)) (cs : ClusterSt)
    (id : String) : ClusterSt :=
  if id ∈ cs.visited then cs
  else
    let cid := cs.clusterId
    let cs1 := clusterVisit cid cs id
    let r1 := clusterRound adj cid (cs1, []) [id]
    let r2 := clusterRound adj cid (r1.1, []) r1.2
    { r2.1 with clusterId := cid + 1 }

/-- Model of `assignClusters(nodes, links)` (lines 245-293). -/
def assignClusters (nodes : List GraphNode) (links : List GraphLink) :
    ClusterSt :=
  let adj := adjBuild nodes links
  (nodes.map (fun n => n.id)).foldl (clusterSeed adj)
    { nodes := nodes, visited := [], clusterId := 0, trace := [] }

/-- State of the BFS of `calculateDegreesOfSeparation`. -/
structure BfsSt where
  dist : List (String × Nat)
  queue : List (String × Nat)
deriving Repr, DecidableEq

/-- One iteration of the BFS `while` loop (lines 320-331): dequeue the
head and enqueue each undiscovered neighbour at distance + 1. -/
def bfsStep (adj : List (String × List String)) (st : BfsSt) : BfsSt :=
  match st.queue with
  | [] => st
  | (id, d) :: rest =>
      let nbs := (mget adj id).getD []
      nbs.foldl
        (fun acc nb =>
          if mhas acc.dist nb then acc
          else { dist := acc.dist ++ [(nb, d + 1)], queue := acc.queue ++ [(nb, d + 1)] })
        { dist := st.dist, queue := rest }

/-- Fuel-indexed BFS loop. -/
def bfsRun (adj : List (String × List String)) : Nat → BfsSt → BfsSt
  | 0, st => st
  | fuel + 1, st => if st.queue.isEmpty then st else bfsRun adj fuel (bfsStep adj st)

/-- Every id occurring in some neighbour list (deduplicated); only these
can ever be enqueued by the BFS. -/
def adjTargets (adj : List (String × List String)) : List String :=
  ((adj.map Prod.snd).flatten).dedup

/-- Termination measure of the BFS loop. -/
def bfsMeasure (adj : List (String × List String)) (st : BfsSt) : Nat :=
  st.queue.length + ((adjTargets adj).filter (fun p => ¬ mhas st.dist p)).length

/-- Model of `calculateDegreesOfSeparation(nodes, links, referenceUser)`
(lines 299-337): BFS from the reference user over the undirected
adjacency, then store each node's reached distance (absent when never
reached). -/
def calculateDegreesOfSeparation (nodes : List GraphNode)
    (links : List GraphLink) (referenceUser : String) : List GraphNode :=
  let adj := adjBuild nodes links
  let st0 : BfsSt := { dist := [(referenceUser, 0)], queue := [(referenceUser, 0)] }
  let stF := bfsRun adj (bfsMeasure adj st0) st0
  nodes.map (fun n => { n with degreesFromRoot := mget stF.dist n.id })

/-- The analytics phase of useWebOfTrust's queryFn (lines 162-233), run
over the collector's final maps: degrees and bidirectionality, hub
classification, clustering, optional reference distances, stats. -/
def runAnalytics (referenceUser : Option String)
    (nodesMap : List (String × GraphNode)) (linksMap : List (String × GraphLink)) :
    GraphData :=
  let links := linksMap.map Prod.snd
  let nodesMap1 := degreePass nodesMap links
  let links1 := bidirPass links
  let nodes := nodesMap1.map Prod.snd
  let nodes1 := hubPass nodes
  let nodes2 := (assignClusters nodes1 links1).nodes
  let nodes3 :=
    match referenceUser with
    | some r => calculateDegreesOfSeparation nodes2 links1 r
    | none => nodes2
  let stats : GraphStats :=
    { totalNodes := nodes3.length
      totalLinks := links1.length
      hubs := (nodes3.filter (fun n => n.isHub)).length
      bidirectionalLinks := (links1.filter (fun l => l.isBidirectional)).length
      clusters := ((nodes3.map (fun n => n.cluster)).filter (fun c => c ≠ none)).dedup.length }
  { nodes := nodes3, links := links1, stats := stats }

/-- The whole useWebOfTrust queryFn over a finite relay database:
seeding (root or global mode), frontier loop, analytics. -/
def webOfTrustRun (db : List NEvent) (startPubkey : Option String)
    (depth limit : Nat) (referenceUser : Option String) : GraphData :=
  let st0 :=
    match startPubkey with
    | some r => initRoot r
    | none => initGlobal db limit
  let stF := collectRun db depth st0
  runAnalytics referenceUser stF.nodesMap stF.linksMap

/-- Model of `parseContactList` (src/src/hooks/useSocialGraph.ts lines 21-26),
modelled on raw tag arrays: keep tags whose first field is `"p"`, take
their second field (possibly missing), and drop the falsy results
(`filter(Boolean)` removes both a missing `tag[1]` and the empty
string). -/
def parseContactList (tags : List (List String)) : List String :=
  (((tags.filter (fun tag => tag.head? == some "p")).map (fun tag => tag[1]?)).filter
      (fun v => v ≠ none ∧ v ≠ some "")).filterMap id

/-- Variant of `parseContactList` applied to an event whose tags are
`(tagName, tagValue)` pairs (every tag value present, `""` still
falsy). -/
def parseContactListP (ev : NEvent) : List String :=
  ((ev.tags.filter (fun t => t.1 == "p")).map Prod.snd).filter (fun v => v ≠ "")

/-- A kind 0 profile as consumed by useSocialGraph. -/
structure NostrProfile where
  pubkey : String
  name : Option String := none
  picture : Option String := none
  display_name : Option String := none
deriving Repr, DecidableEq

/-- Graph node of useSocialGraph (per src/lib/forceGraph.ts usage). -/
structure SGNode where
  id : String
  label : String
  avatar : Option String
  x : ℚ
  y : ℚ
  vx : ℚ
  vy : ℚ
  radius : ℚ
  color : String
  isRoot : Bool
deriving Repr, DecidableEq

/-- Graph link of useSocialGraph. -/
structure SGLink where
  source : String
  target : String
deriving Repr, DecidableEq

/-- JS `a || b` for a possibly-absent string: an absent or empty string
falls through. -/
def truthyOr (a : Option String) (b : String) : String :=
  match a with
  | some s => if s = "" then b else s
  | none => b

/-- Traversal state of useSocialGraph's breadth-first loop
(lines 67-93). -/
structure SGTrav where
  followMap : List (String × List String)
  allPubkeys : List String
  visited : List String
  currentLevel : List String
  nextLevel : List String
deriving Repr

/-- One level iteration of useSocialGraph's loop body (lines 72-91):
fetch every contact list of the current level, record it in the follow
map, and add each followed pubkey that is unvisited — while the total
pubkey count stays below `limit` — to the next level. -/
def sgLevelStep (db : List NEvent) (limit : Nat) (st : SGTrav) : SGTrav :=
  let events := queryAuthorsAll db st.currentLevel
  let st1 :=
    events.foldl
      (fun acc ev =>
        let followed := parseContactListP ev
        let acc1 := { acc with followMap := mset acc.followMap ev.pubkey followed }
        followed.foldl
          (fun a pk =>
            if pk ∉ a.visited ∧ a.allPubkeys.length < limit then
              { a with visited := sadd a.visited pk,
                       nextLevel := a.nextLevel ++ [pk],
                       allPubkeys := sadd a.allPubkeys pk }
            else a)
          acc1)
      st
  { st1 with currentLevel := st1.nextLevel, nextLevel := [] }

/-- The `for (let level = 1; level < depth && currentLevel.length > 0; ...)`
loop, as recursion on the remaining level count. -/
def sgLoop (db : List NEvent) (limit : Nat) : Nat → SGTrav → SGTrav
  | 0, st => st
  | k + 1, st =>
      if st.currentLevel.isEmpty then st
      else sgLoop db limit k (sgLevelStep db limit st)

/-- The graph-building queryFn of useSocialGraph (lines 34-174) over a
finite relay database.  The kind 0 profile fetch plus JSON-metadata
parse is modelled by the `profiles` lookup (an out-of-scope collaborator
in the spec); pubkeys without a profile fall back to a pubkey-only
entry. -/
def socialGraphRun (db : List NEvent) (profiles : String → Option NostrProfile)
    (rootPubkey : Option String) (depth limit : Nat) :
    List SGNode × List SGLink :=
  let contactEvents :=
    match rootPubkey with
    | some r => queryAuthors db [r]
    | none => queryRecent db limit
  if contactEvents.isEmpty then ([], [])
  else
    let fmap0 : List (String × List String) × List String :=
      contactEvents.foldl
        (fun acc ev =>
          let followed := parseContactListP ev
          (mset acc.1 ev.pubkey followed,
           followed.foldl sadd (sadd acc.2 ev.pubkey)))
        ([], [])
    let trav0 : SGTrav :=
      { followMap := fmap0.1, allPubkeys := fmap0.2, visited := [],
        currentLevel := [], nextLevel := [] }
    let trav1 :=
      match rootPubkey with
      | some r =>
          if 1 < depth then
            sgLoop db limit (depth - 1)
              { trav0 with visited := [r], currentLevel := [r] }
          else trav0
      | none => trav0
    let pubkeyArray := trav1.allPubkeys.take limit
    let effProfile : String → NostrProfile := fun pk =>
      (profiles pk).getD { pubkey := pk }
    let nodes : List SGNode :=
      pubkeyArray.map (fun pk =>
        let p := effProfile pk
        let isRoot : Bool := some pk == rootPubkey
        { id := pk
          label := truthyOr p.display_name (truthyOr p.name (pk.take 8))
          avatar := p.picture
          x := 0, y := 0, vx := 0, vy := 0
          radius := if isRoot then 20 else 12
          color := if isRoot then "#8b5cf6" else "#3b82f6"
          isRoot := isRoot })
    let links : List SGLink :=
      trav1.followMap.foldl
        (fun acc p =>
          if p.1 ∈ pubkeyArray then
            acc ++ (p.2.filter (fun t => t ∈ pubkeyArray)).map
              (fun t => { source := p.1, target := t })
          else acc)
        []
    (nodes, links)

/-! ## Specification-side notions

The properties the claims talk about, written directly from the spec's
words (reverse edges, undirected hop reachability). -/

/-- The reverse directed edge of `l` is present in the edge set. -/
def hasReverse (links : List GraphLink) (l : GraphLink) : Prop :=
  ∃ l2 ∈ links, l2.source = l.target ∧ l2.target = l.source

/-- Nodes `u` and `v` are joined by some collected edge, in either
direction. -/
def linkAdj (links : List GraphLink) (u v : String) : Prop :=
  ∃ l ∈ links, (l.source = u ∧ l.target = v) ∨ (l.source = v ∧ l.target = u)

/-- Node `v` is within `n` undirected hops of `ref` over the collected
edges. -/
def linkReach (links : List GraphLink) (ref : String) : Nat → String → Prop
  | 0, v => v = ref
  | n + 1, v =>
      linkReach links ref n v ∨ ∃ u, linkReach links ref n u ∧ linkAdj links u v

/-- Node `v` is within `n` hops of `ref` over an adjacency map. -/
def adjReach (adj : List (String × List String)) (ref : String) :
    Nat → String → Prop
  | 0, v => v = ref
  | n + 1, v =>
      adjReach adj ref n v ∨ ∃ u, adjReach adj ref n u ∧ v ∈ (mget adj u).getD []

/-! ## Generic helper lemmas -/

theorem foldl_inv {α β : Type} {P : α → Prop} {f : α → β → α} {l : List β} {a : α}
    (h0 : P a) (hstep : ∀ x b, P x → b ∈ l → P (f x b)) : P (l.foldl f a) := by
  induction l generalizing a with
  | nil => exact h0
  | cons b bs ih =>
      exact ih (hstep a b h0 (List.mem_cons_self b bs))
        (fun x c hx hc => hstep x c hx (List.mem_cons_of_mem b hc))

theorem mem_mset {α : Type} {m : List (String × α)} {k : String} {v : α}
    {p : String × α} (hp : p ∈ mset m k v) : p ∈ m ∨ p = (k, v) := by
  unfold mset at hp
  by_cases h : mhas m k = true
  · simp only [h, if_true] at hp
    rcases List.mem_map.mp hp with ⟨q, hq, rfl⟩
    by_cases hk : (q.1 == k) = true
    · right; simp [hk, eq_of_beq hk]
    · left; simpa [hk] using hq
  · simp only [h, if_false] at hp
    rcases List.mem_append.mp hp with h1 | h1
    · exact Or.inl h1
    · exact Or.inr (by simpa using h1)

theorem mem_mupdate {α : Type} {m : List (String × α)} {k : String} {f : α → α}
    {p : String × α} (hp : p ∈ mupdate m k f) :
    ∃ q ∈ m, p = q ∨ p = (q.1, f q.2) := by
  unfold mupdate at hp
  rcases List.mem_map.mp hp with ⟨q, hq, rfl⟩
  by_cases hk : (q.1 == k) = true
  · exact ⟨q, hq, Or.inr (by simp [hk])⟩
  · exact ⟨q, hq, Or.inl (by simp [hk])⟩

theorem mhas_mset_mono {α : Type} {m : List (String × α)} {k x : String} {v : α}
    (h : mhas m x = true) : mhas (mset m k v) x = true := by
  unfold mhas at *
  rcases List.any_eq_true.mp h with ⟨p, hp, hpx⟩
  unfold mset
  by_cases hk : mhas m k = true
  · simp only [hk, if_true]
    refine List.any_eq_true.mpr ?_
    by_cases hpk : (p.1 == k) = true
    · exact ⟨(p.1, v), List.mem_map.mpr ⟨p, hp, by simp [hpk]⟩, hpx⟩
    · exact ⟨p, List.mem_map.mpr ⟨p, hp, by simp [hpk]⟩, hpx⟩
  · simp only [hk, if_false]
    exact List.any_eq_true.mpr ⟨p, List.mem_append_left _ hp, hpx⟩

theorem mhas_mset_self {α : Type} (m : List (String × α)) (k : String) (v : α) :
    mhas (mset m k v) k = true := by
  unfold mset
  by_cases hk : mhas m k = true
  · simp only [hk, if_true]
    unfold mhas at *
    rcases List.any_eq_true.mp hk with ⟨p, hp, hpx⟩
    exact List.any_eq_true.mpr ⟨(p.1, v), List.mem_map.mpr ⟨p, hp, by simp [hpx]⟩, hpx⟩
  · simp only [hk, if_false]
    exact List.any_eq_true.mpr ⟨(k, v), List.mem_append_right _ (by simp), by simp⟩

theorem mhas_mupdate {α : Type} (m : List (String × α)) (k x : String) (f : α → α) :
    mhas (mupdate m k f) x = mhas m x := by
  unfold mhas mupdate
  rw [List.any_map]
  congr 1
  funext p
  by_cases hk : (p.1 == k) = true <;> simp [hk, Function.comp]

theorem mhas_iff_mem {α : Type} {m : List (String × α)} {x : String} :
    mhas m x = true ↔ ∃ p ∈ m, p.1 = x := by
  unfold mhas
  rw [List.any_eq_true]
  constructor
  · rintro ⟨p, hp, he⟩; exact ⟨p, hp, eq_of_beq he⟩
  · rintro ⟨p, hp, he⟩; exact ⟨p, hp, by simp [he]⟩

/-! ## C9: the contact-list parser -/

/-- One-tag characterization of what the parser extracts: the value of a
`p`-marked tag when that value exists and is non-empty. -/
def pExtract (t : List String) : Option String :=
  match t with
  | m :: v :: _ => if m = "p" then (if v = "" then none else some v) else none
  | _ => none

/-- C9: for every raw record the parser returns exactly the identities of
the `p`-marked tags, in record order, silently skipping tags whose
identity is missing or empty; with no extractable identity it returns
the empty sequence (and, being a total function, never fails). -/
theorem C9_parser_skips_malformed :
    (∀ tags : List (List String), parseContactList tags = tags.filterMap pExtract) ∧
    (∀ tags : List (List String), (∀ t ∈ tags, pExtract t = none) →
        parseContactList tags = []) := by
  have main : ∀ tags : List (List String), parseContactList tags = tags.filterMap pExtract := by
    intro tags
    induction tags with
    | nil => rfl
    | cons t ts ih =>
        unfold parseContactList at *
        rw [List.filterMap_cons]
        match t with
        | [] => simpa [pExtract] using ih
        | [m] =>
            by_cases hm : m = "p"
            · simpa [pExtract, hm] using ih
            · simpa [pExtract, hm] using ih
        | m :: v :: rest =>
            by_cases hm : m = "p"
            · by_cases hv : v = ""
              · simpa [pExtract, hm, hv] using ih
              · simpa [pExtract, hm, hv] using ih
            · simpa [pExtract, hm] using ih
  refine ⟨main, fun tags h => ?_⟩
  rw [main]
  exact List.filterMap_eq_nil_iff.mpr h

/-- Witness for C9's second conjunct: a record with only malformed or
non-`p` tags yields the empty sequence. -/
theorem C9_witness :
    (∀ t ∈ ([["e", "x"], ["p"], ["p", ""], []] : List (List String)), pExtract t = none) ∧
    parseContactList [["e", "x"], ["p"], ["p", ""], []] = [] :=
  ⟨by decide, C9_parser_skips_malformed.2 _ (by decide)⟩

/-! ## C10 and C6: bidirectionality marking -/

/-- Identities free of the `'>'` character (every fixed-format hex
public key is); under this condition the string link keys
`` `${source}->${target}` `` decompose uniquely. -/
def arrowFree (s : String) : Prop := ('>' : Char) ∉ s.data

theorem arrow_split {as bs cs ds : List Char}
    (h1 : ('>' : Char) ∉ as) (h2 : ('>' : Char) ∉ cs)
    (he : as ++ '-' :: '>' :: bs = cs ++ '-' :: '>' :: ds) : as = cs ∧ bs = ds := by
  induction as generalizing cs with
  | nil =>
      cases cs with
      | nil => simpa using he
      | cons c cs' =>
          simp only [List.nil_append, List.cons_append, List.cons.injEq] at he
          obtain ⟨hc, he2⟩ := he
          cases cs' with
          | nil => simp at he2
          | cons c2 cs'' =>
              simp only [List.cons_append, List.cons.injEq] at he2
              apply absurd _ h2
              rw [he2.1]
              simp
  | cons a as' ih =>
      cases cs with
      | nil =>
          simp only [List.nil_append, List.cons_append, List.cons.injEq] at he
          obtain ⟨hc, he2⟩ := he
          cases as' with
          | nil => simp at he2
          | cons a2 as'' =>
              simp only [List.cons_append, List.cons.injEq] at he2
              apply absurd _ h1
              rw [← he2.1]
              simp
      | cons c cs' =>
          simp only [List.cons_append, List.cons.injEq] at he
          obtain ⟨rfl, he2⟩ := he
          have h1' : ('>' : Char) ∉ as' := fun hx => h1 (List.mem_cons_of_mem _ hx)
          have h2' : ('>' : Char) ∉ cs' := fun hx => h2 (List.mem_cons_of_mem _ hx)
          obtain ⟨rfl, rfl⟩ := ih h1' h2' he2
          exact ⟨rfl, rfl⟩

theorem arrow_key_inj {s1 t1 s2 t2 : String}
    (h1 : arrowFree s1) (h2 : arrowFree s2)
    (he : s1 ++ "->" ++ t1 = s2 ++ "->" ++ t2) : s1 = s2 ∧ t1 = t2 := by
  have hd : s1.data ++ '-' :: '>' :: t1.data = s2.data ++ '-' :: '>' :: t2.data := by
    have := congrArg String.data he
    simpa [String.data_append, List.append_assoc] using this
  obtain ⟨ha, hb⟩ := arrow_split h1 h2 hd
  exact ⟨String.ext ha, String.ext hb⟩

theorem linkKey_eq_revKey_iff {l2 l : GraphLink}
    (h1 : arrowFree l2.source) (h2 : arrowFree l.target) :
    linkKey l2 = revKey l ↔ (l2.source = l.target ∧ l2.target = l.source) := by
  constructor
  · intro h
    exact arrow_key_inj h1 h2 h
  · rintro ⟨ha, hb⟩
    simp [linkKey, revKey, ha, hb]

theorem revKey_eq_linkKey_iff {l2 l : GraphLink}
    (h1 : arrowFree l2.target) (h2 : arrowFree l.source) :
    revKey l2 = linkKey l ↔ (l2.target = l.source ∧ l2.source = l.target) := by
  constructor
  · intro h
    exact arrow_key_inj h1 h2 h
  · rintro ⟨ha, hb⟩
    simp [linkKey, revKey, ha, hb]

/-- The self-loop database of Scenario C: A publishes a contact list
following A itself. -/
def scdb : List NEvent := [{ pubkey := "A", created_at := 1, tags := [("p", "A")] }]

/-- C10: a self-loop edge is its own reverse key, so the marking pass
always sets its `isBidirectional` flag; concretely, the Scenario C
snapshot counts its single self-loop once in `stats.bidirectionalLinks`. -/
theorem C10_selfloop_bidirectional :
    (∀ (links : List GraphLink), ∀ l ∈ links, l.source = l.target →
        (bidirMark links l).isBidirectional = true) ∧
    (webOfTrustRun scdb (some "A") 1 100 none).stats.bidirectionalLinks = 1 := by
  constructor
  · intro links l hl hself
    unfold bidirMark
    simp only [Bool.or_eq_true]
    refine Or.inl (Or.inr (List.any_eq_true.mpr ⟨l, hl, ?_⟩))
    simp [linkKey, revKey, hself]
  · decide

/-- Witness for C10's general conjunct, at the singleton self-loop edge
set. -/
theorem C10_witness :
    (bidirMark [{ source := "A", target := "A", isBidirectional := false }]
        { source := "A", target := "A", isBidirectional := false }).isBidirectional = true :=
  C10_selfloop_bidirectional.1 _ _ (List.mem_singleton_self _) rfl

/-- Global-mode database whose identities contain the `"->"` delimiter:
the link `a → "b->c"` has reverse key `"b->c->a"`, which is exactly the
key of the unrelated link `b → "c->a"`. -/
def cx6db : List NEvent :=
  [{ pubkey := "a", created_at := 1, tags := [("p", "b->c")] },
   { pubkey := "b", created_at := 1, tags := [("p", "c->a")] }]

/-- C6 counterexample: in the snapshot collected from `cx6db`, some edge
is marked bidirectional although the reverse directed edge is not in the
edge set — the string reverse-key lookup collides with a different
edge's key. -/
theorem C6_counterexample :
    ∃ l ∈ (webOfTrustRun cx6db none 1 2 none).links,
      l.isBidirectional = true ∧
      ∀ l2 ∈ (webOfTrustRun cx6db none 1 2 none).links,
        ¬ (l2.source = l.target ∧ l2.target = l.source) := by
  decide

instance (links : List GraphLink) (l : GraphLink) : Decidable (hasReverse links l) := by
  unfold hasReverse
  infer_instance

instance (s : String) : Decidable (arrowFree s) := by
  unfold arrowFree
  infer_instance

/-- C6 (amended): provided every edge endpoint is free of the `'>'`
character (as every fixed-format public key is), the marking pass sets
`isBidirectional` on exactly the edges whose reverse edge exists, marks
both directions of a mutual pair, and the bidirectional count of the
stats counts one per edge record, i.e. two per mutual pair. -/
theorem C6_bidirectional_symmetry (links : List GraphLink)
    (h0 : ∀ l ∈ links, l.isBidirectional = false)
    (hfree : ∀ l ∈ links, arrowFree l.source ∧ arrowFree l.target) :
    (∀ l ∈ links, ((bidirMark links l).isBidirectional = true ↔ hasReverse links l)) ∧
    (∀ l ∈ links, ∀ l2 ∈ links, l2.source = l.target → l2.target = l.source →
        (bidirMark links l2).isBidirectional = true) ∧
    ((bidirPass links).filter (fun l => l.isBidirectional)).length =
      links.countP (fun l => decide (hasReverse links l)) := by
  have hiff : ∀ l ∈ links, ((bidirMark links l).isBidirectional = true ↔ hasReverse links l) := by
    intro l hl
    unfold bidirMark
    simp only [h0 l hl, Bool.false_or, Bool.or_eq_true]
    constructor
    · rintro (h1 | h2)
      · rcases List.any_eq_true.mp h1 with ⟨l2, hl2, hk⟩
        have hk' : linkKey l2 = revKey l := eq_of_beq hk
        have := (linkKey_eq_revKey_iff (hfree l2 hl2).1 (hfree l hl).2).mp hk'
        exact ⟨l2, hl2, this⟩
      · rcases List.any_eq_true.mp h2 with ⟨l2, hl2, hk⟩
        have hk' : revKey l2 = linkKey l := eq_of_beq hk
        have := (revKey_eq_linkKey_iff (hfree l2 hl2).2 (hfree l hl).1).mp hk'
        exact ⟨l2, hl2, this.2, this.1⟩
    · rintro ⟨l2, hl2, hs, ht⟩
      refine Or.inl (List.any_eq_true.mpr ⟨l2, hl2, ?_⟩)
      have : linkKey l2 = revKey l :=
        (linkKey_eq_revKey_iff (hfree l2 hl2).1 (hfree l hl).2).mpr ⟨hs, ht⟩
      simp [this]
  refine ⟨hiff, ?_, ?_⟩
  · intro l hl l2 hl2 hs ht
    exact (hiff l2 hl2).mpr ⟨l, hl, by rw [ht], by rw [hs]⟩
  · have hpt : ∀ l ∈ links,
        (bidirMark links l).isBidirectional = decide (hasReverse links l) := by
      intro l hl
      by_cases hR : hasReverse links l
      · rw [(hiff l hl).mpr hR]
        simp [hR]
      · have : ¬ (bidirMark links l).isBidirectional = true := fun hc => hR ((hiff l hl).mp hc)
        rw [Bool.not_eq_true] at this
        rw [this]
        simp [hR]
    unfold bidirPass
    rw [List.filter_map, List.length_map, List.countP_eq_length_filter]
    congr 1
    exact List.filter_congr (fun l hl => by simpa using hpt l hl)

/-- Witness for C6's amended theorem at a concrete mutual pair. -/
def w6links : List GraphLink :=
  [{ source := "A", target := "B", isBidirectional := false },
   { source := "B", target := "A", isBidirectional := false }]

theorem C6_witness :
    ((∀ l ∈ w6links, l.isBidirectional = false) ∧
        (∀ l ∈ w6links, arrowFree l.source ∧ arrowFree l.target)) ∧
    ((bidirPass w6links).filter (fun l => l.isBidirectional)).length =
      w6links.countP (fun l => decide (hasReverse w6links l)) :=
  ⟨⟨by decide, by decide⟩,
    (C6_bidirectional_symmetry w6links (by decide) (by decide)).2.2⟩

/-! ## C1: node budget -/

/-- Database for the C1 counterexample: the root follows two others. -/
def cx1db : List NEvent :=
  [{ pubkey := "A", created_at := 1, tags := [("p", "B"), ("p", "C")] }]

/-- C1 counterexample: useWebOfTrust's `limit` option only caps fetched
events per query; with `limit = 1` the collector still creates one node
per followed identity, so the snapshot holds 3 nodes. -/
theorem C1_counterexample :
    ¬ ((webOfTrustRun cx1db (some "A") 1 1 none).stats.totalNodes ≤ 1) := by
  decide

/-- C1 (amended): the node-budget guarantee holds for the useSocialGraph
collector — its node array is built from the pubkey list truncated to
`limit` (and its level loop stops admitting identities once the count
reaches `limit`) — whereas useWebOfTrust (the C1 counterexample) imposes
no node budget at all. -/
theorem C1_socialGraph_node_budget (db : List NEvent)
    (profiles : String → Option NostrProfile) (rootPubkey : Option String)
    (depth limit : Nat) :
    (socialGraphRun db profiles rootPubkey depth limit).1.length ≤ limit := by
  cases rootPubkey with
  | none =>
      unfold socialGraphRun
      dsimp only
      split
      · simp
      · simp only [List.length_map, List.length_take]
        omega
  | some r =>
      unfold socialGraphRun
      dsimp only
      split
      · simp
      · simp only [List.length_map, List.length_take]
        omega

/-! ## Collector invariants (shared by several claims) -/

theorem mhas_eq_keys_mem {α : Type} {m : List (String × α)} {k : String} :
    mhas m k = true ↔ k ∈ m.map Prod.fst := by
  rw [mhas_iff_mem]
  constructor
  · rintro ⟨p, hp, rfl⟩; exact List.mem_map.mpr ⟨p, hp, rfl⟩
  · intro h; rcases List.mem_map.mp h with ⟨p, hp, rfl⟩; exact ⟨p, hp, rfl⟩

theorem mkeys_mset_of_not_has {α : Type} {m : List (String × α)} {k : String}
    {v : α} (h : ¬ mhas m k = true) :
    (mset m k v).map Prod.fst = m.map Prod.fst ++ [k] := by
  unfold mset
  simp [h]

theorem mkeys_mset_of_has {α : Type} {m : List (String × α)} {k : String}
    {v : α} (h : mhas m k = true) :
    (mset m k v).map Prod.fst = m.map Prod.fst := by
  unfold mset
  simp only [h, if_true, List.map_map]
  apply List.map_congr_left
  intro p _
  by_cases hk : (p.1 == k) = true <;> simp [hk, Function.comp]

theorem mkeys_mupdate {α : Type} (m : List (String × α)) (k : String) (f : α → α) :
    (mupdate m k f).map Prod.fst = m.map Prod.fst := by
  unfold mupdate
  rw [List.map_map]
  apply List.map_congr_left
  intro p _
  by_cases hk : (p.1 == k) = true <;> simp [hk, Function.comp]

theorem latestByAuthor_spec {db : List NEvent} {a : String} {ev : NEvent}
    (h : latestByAuthor db a = some ev) : ev.pubkey = a ∧ ev ∈ db := by
  unfold latestByAuthor at h
  have main : ∀ (l : List NEvent) (acc : Option NEvent) (ev : NEvent),
      l.foldl (fun acc e =>
        if e.pubkey == a then
          match acc with
          | none => some e
          | some b => if b.created_at < e.created_at then some e else acc
        else acc) acc = some ev →
      acc = some ev ∨ (ev.pubkey = a ∧ ev ∈ l) := by
    intro l
    induction l with
    | nil => intro acc ev h; exact Or.inl h
    | cons e es ih =>
        intro acc ev h
        rw [List.foldl_cons] at h
        rcases ih _ _ h with hstep | ⟨hpk, hmem⟩
        · by_cases hp : (e.pubkey == a) = true
          · rw [if_pos hp] at hstep
            cases acc with
            | none =>
                obtain rfl : e = ev := by simpa using hstep
                exact Or.inr ⟨eq_of_beq hp, List.mem_cons_self _ _⟩
            | some b =>
                dsimp only at hstep
                by_cases hc : b.created_at < e.created_at
                · rw [if_pos hc] at hstep
                  obtain rfl : e = ev := by simpa using hstep
                  exact Or.inr ⟨eq_of_beq hp, List.mem_cons_self _ _⟩
                · rw [if_neg hc] at hstep
                  exact Or.inl hstep
          · rw [if_neg hp] at hstep
            exact Or.inl hstep
        · exact Or.inr ⟨hpk, List.mem_cons_of_mem _ hmem⟩
  rcases main db none ev h with h1 | h2
  · exact absurd h1 (by simp)
  · exact h2

theorem queryAuthors_mem {db : List NEvent} {pks : List String} {ev : NEvent}
    (h : ev ∈ queryAuthors db pks) : ev.pubkey ∈ pks ∧ ev ∈ db := by
  unfold queryAuthors at h
  rcases List.mem_filterMap.mp h with ⟨a, ha, hla⟩
  obtain ⟨hpk, hdb⟩ := latestByAuthor_spec hla
  exact ⟨hpk ▸ ha, hdb⟩

/-- The condition under which `processFollow` enqueues the followed
pubkey. -/
def enqCond (depth currentLevel : Nat) (st : CState) (fp : String) : Prop :=
  ¬ mhas st.nodesMap fp = true ∧ currentLevel + 1 < depth ∧ fp ∉ st.processed

instance (depth currentLevel : Nat) (st : CState) (fp : String) :
    Decidable (enqCond depth currentLevel st fp) := by
  unfold enqCond
  infer_instance

theorem processFollow_nodesMap (depth cl : Nat) (author fp : String) (st : CState) :
    (processFollow depth cl author st fp).nodesMap =
      if mhas st.nodesMap fp then
        mupdate st.nodesMap fp (fun n => { n with val := min (n.val + 1) 20 })
      else mset st.nodesMap fp
        { id := fp, val := 3, inDegree := 0, outDegree := 0, isHub := false } := by
  unfold processFollow
  by_cases h1 : mhas st.linksMap (author ++ "->" ++ fp) = true <;>
    by_cases h2 : mhas st.nodesMap fp = true <;>
      by_cases h3 : (cl + 1 < depth ∧ fp ∉ st.processed) <;>
        simp [h1, h2, h3]

theorem processFollow_linksMap (depth cl : Nat) (author fp : String) (st : CState) :
    (processFollow depth cl author st fp).linksMap =
      if mhas st.linksMap (author ++ "->" ++ fp) then st.linksMap
      else mset st.linksMap (author ++ "->" ++ fp)
        { source := author, target := fp, isBidirectional := false } := by
  unfold processFollow
  by_cases h1 : mhas st.linksMap (author ++ "->" ++ fp) = true <;>
    by_cases h2 : mhas st.nodesMap fp = true <;>
      by_cases h3 : (cl + 1 < depth ∧ fp ∉ st.processed) <;>
        simp [h1, h2, h3]

theorem processFollow_processed (depth cl : Nat) (author fp : String) (st : CState) :
    (processFollow depth cl author st fp).processed = st.processed := by
  unfold processFollow
  by_cases h1 : mhas st.linksMap (author ++ "->" ++ fp) = true <;>
    by_cases h2 : mhas st.nodesMap fp = true <;>
      by_cases h3 : (cl + 1 < depth ∧ fp ∉ st.processed) <;>
        simp [h1, h2, h3]

theorem processFollow_toProcess (depth cl : Nat) (author fp : String) (st : CState) :
    (processFollow depth cl author st fp).toProcess =
      st.toProcess ++
        (if enqCond depth cl st fp then [(fp, cl + 1)] else []) := by
  unfold processFollow enqCond
  by_cases h1 : mhas st.linksMap (author ++ "->" ++ fp) = true <;>
    by_cases h2 : mhas st.nodesMap fp = true <;>
      by_cases h3 : (cl + 1 < depth ∧ fp ∉ st.processed) <;>
        simp [h1, h2, h3]

theorem processFollow_enqTrace (depth cl : Nat) (author fp : String) (st : CState) :
    (processFollow depth cl author st fp).enqTrace =
      st.enqTrace ++ (if enqCond depth cl st fp then [fp] else []) := by
  unfold processFollow enqCond
  by_cases h1 : mhas st.linksMap (author ++ "->" ++ fp) = true <;>
    by_cases h2 : mhas st.nodesMap fp = true <;>
      by_cases h3 : (cl + 1 < depth ∧ fp ∉ st.processed) <;>
        simp [h1, h2, h3]

theorem processFollow_batchTrace (depth cl : Nat) (author fp : String) (st : CState) :
    (processFollow depth cl author st fp).batchTrace = st.batchTrace := by
  unfold processFollow
  by_cases h1 : mhas st.linksMap (author ++ "->" ++ fp) = true <;>
    by_cases h2 : mhas st.nodesMap fp = true <;>
      by_cases h3 : (cl + 1 < depth ∧ fp ∉ st.processed) <;>
        simp [h1, h2, h3]

theorem processFollow_nodes_mono {depth cl : Nat} {author fp x : String} {st : CState}
    (h : mhas st.nodesMap x = true) :
    mhas (processFollow depth cl author st fp).nodesMap x = true := by
  rw [processFollow_nodesMap]
  by_cases h2 : mhas st.nodesMap fp = true
  · rw [if_pos h2, mhas_mupdate]; exact h
  · rw [if_neg h2]; exact mhas_mset_mono h

/-- The collector's data invariant: node values sit in `[3, 20]`, every
node binding stores its own key as `id`, every link binding's key is its
`` `${source}->${target}` `` string, all link flags are still `false`,
both link endpoints already have nodes, link keys are distinct, every
queued pubkey has a node, and the enqueue trace is duplicate-free with
every enqueued pubkey present as a node. -/
structure CInv (st : CState) : Prop where
  val_lb : ∀ p ∈ st.nodesMap, 3 ≤ p.2.val
  val_ub : ∀ p ∈ st.nodesMap, p.2.val ≤ 20
  node_id : ∀ p ∈ st.nodesMap, p.2.id = p.1
  link_key : ∀ p ∈ st.linksMap, p.1 = linkKey p.2
  link_flag : ∀ p ∈ st.linksMap, p.2.isBidirectional = false
  link_src : ∀ p ∈ st.linksMap, mhas st.nodesMap p.2.source = true
  link_tgt : ∀ p ∈ st.linksMap, mhas st.nodesMap p.2.target = true
  keys_nodup : (st.linksMap.map Prod.fst).Nodup
  queue_in : ∀ q ∈ st.toProcess, mhas st.nodesMap q.1 = true
  enq_nodup : st.enqTrace.Nodup
  enq_in : ∀ x ∈ st.enqTrace, mhas st.nodesMap x = true

theorem CInv_processFollow {d c : Nat} {a y : String} {st : CState}
    (hinv : CInv st) (hauthor : mhas st.nodesMap a = true) :
    CInv (processFollow d c a st y) := by
  have hnodes := processFollow_nodesMap d c a y st
  have hlinks := processFollow_linksMap d c a y st
  have hqueue := processFollow_toProcess d c a y st
  have henq := processFollow_enqTrace d c a y st
  have hmono : ∀ x, mhas st.nodesMap x = true →
      mhas (processFollow d c a st y).nodesMap x = true :=
    fun x hx => processFollow_nodes_mono hx
  have hfpnode : mhas (processFollow d c a st y).nodesMap y = true := by
    rw [hnodes]
    by_cases h2 : mhas st.nodesMap y = true
    · rw [if_pos h2, mhas_mupdate]; exact h2
    · rw [if_neg h2]; exact mhas_mset_self _ _ _
  constructor
  -- val_lb
  · intro p hp
    rw [hnodes] at hp
    by_cases h2 : mhas st.nodesMap y = true
    · rw [if_pos h2] at hp
      rcases mem_mupdate hp with ⟨q, hq, rfl | rfl⟩
      · exact hinv.val_lb p hq
      · have := hinv.val_lb q hq
        have h20 : (3 : ℚ) ≤ 20 := by norm_num
        exact le_min (by linarith) h20
    · rw [if_neg h2] at hp
      rcases mem_mset hp with hq | rfl
      · exact hinv.val_lb _ hq
      · norm_num
  -- val_ub
  · intro p hp
    rw [hnodes] at hp
    by_cases h2 : mhas st.nodesMap y = true
    · rw [if_pos h2] at hp
      rcases mem_mupdate hp with ⟨q, hq, rfl | rfl⟩
      · exact hinv.val_ub p hq
      · exact min_le_right _ _
    · rw [if_neg h2] at hp
      rcases mem_mset hp with hq | rfl
      · exact hinv.val_ub _ hq
      · norm_num
  -- node_id
  · intro p hp
    rw [hnodes] at hp
    by_cases h2 : mhas st.nodesMap y = true
    · rw [if_pos h2] at hp
      rcases mem_mupdate hp with ⟨q, hq, rfl | rfl⟩
      · exact hinv.node_id p hq
      · exact hinv.node_id q hq
    · rw [if_neg h2] at hp
      rcases mem_mset hp with hq | rfl
      · exact hinv.node_id _ hq
      · rfl
  -- link_key
  · intro p hp
    rw [hlinks] at hp
    by_cases h1 : mhas st.linksMap (a ++ "->" ++ y) = true
    · rw [if_pos h1] at hp; exact hinv.link_key p hp
    · rw [if_neg h1] at hp
      rcases mem_mset hp with hq | rfl
      · exact hinv.link_key _ hq
      · rfl
  -- link_flag
  · intro p hp
    rw [hlinks] at hp
    by_cases h1 : mhas st.linksMap (a ++ "->" ++ y) = true
    · rw [if_pos h1] at hp; exact hinv.link_flag p hp
    · rw [if_neg h1] at hp
      rcases mem_mset hp with hq | rfl
      · exact hinv.link_flag _ hq
      · rfl
  -- link_src
  · intro p hp
    rw [hlinks] at hp
    by_cases h1 : mhas st.linksMap (a ++ "->" ++ y) = true
    · rw [if_pos h1] at hp; exact hmono _ (hinv.link_src p hp)
    · rw [if_neg h1] at hp
      rcases mem_mset hp with hq | rfl
      · exact hmono _ (hinv.link_src _ hq)
      · exact hmono _ hauthor
  -- link_tgt
  · intro p hp
    rw [hlinks] at hp
    by_cases h1 : mhas st.linksMap (a ++ "->" ++ y) = true
    · rw [if_pos h1] at hp; exact hmono _ (hinv.link_tgt p hp)
    · rw [if_neg h1] at hp
      rcases mem_mset hp with hq | rfl
      · exact hmono _ (hinv.link_tgt _ hq)
      · exact hfpnode
  -- keys_nodup
  · rw [hlinks]
    by_cases h1 : mhas st.linksMap (a ++ "->" ++ y) = true
    · rw [if_pos h1]; exact hinv.keys_nodup
    · rw [if_neg h1, mkeys_mset_of_not_has h1]
      have hnotin : (a ++ "->" ++ y) ∉ st.linksMap.map Prod.fst := by
        intro hx
        exact h1 (mhas_eq_keys_mem.mpr hx)
      simp [List.nodup_append, hinv.keys_nodup, hnotin]
  -- queue_in
  · intro q hq
    rw [hqueue] at hq
    rcases List.mem_append.mp hq with h | h
    · exact hmono _ (hinv.queue_in q h)
    · by_cases hc : enqCond d c st y
      · rw [if_pos hc] at h
        obtain rfl : q = (y, c + 1) := by simpa using h
        exact hfpnode
      · rw [if_neg hc] at h
        exact absurd h (by simp)
  -- enq_nodup
  · rw [henq]
    by_cases hc : enqCond d c st y
    · rw [if_pos hc]
      have hnotin : y ∉ st.enqTrace := fun hx => hc.1 (hinv.enq_in y hx)
      simp [List.nodup_append, hinv.enq_nodup, hnotin]
    · rw [if_neg hc]
      simpa using hinv.enq_nodup
  -- enq_in
  · intro x hx
    rw [henq] at hx
    rcases List.mem_append.mp hx with h | h
    · exact hmono _ (hinv.enq_in x h)
    · by_cases hc : enqCond d c st y
      · rw [if_pos hc] at h
        obtain rfl : x = y := by simpa using h
        exact hfpnode
      · rw [if_neg hc] at h
        exact absurd h (by simp)

theorem CInv_processed_change {st : CState} (hinv : CInv st) (pr : List String) :
    CInv { st with processed := pr } :=
  { val_lb := hinv.val_lb, val_ub := hinv.val_ub, node_id := hinv.node_id
    link_key := hinv.link_key, link_flag := hinv.link_flag
    link_src := hinv.link_src, link_tgt := hinv.link_tgt
    keys_nodup := hinv.keys_nodup, queue_in := hinv.queue_in
    enq_nodup := hinv.enq_nodup, enq_in := hinv.enq_in }

theorem processEvent_inv_mono {d c : Nat} {s0 : CState} {ev : NEvent}
    (hinv : CInv s0) (hauthor : mhas s0.nodesMap ev.pubkey = true) :
    CInv (processEvent d c s0 ev) ∧
    (∀ x, mhas s0.nodesMap x = true →
      mhas (processEvent d c s0 ev).nodesMap x = true) := by
  unfold processEvent
  have base : CInv { s0 with processed := sadd s0.processed ev.pubkey } :=
    CInv_processed_change hinv _
  have key : ∀ (fps : List String) (s : CState),
      CInv s → mhas s.nodesMap ev.pubkey = true →
      CInv (fps.foldl (processFollow d c ev.pubkey) s) ∧
      (∀ x, mhas s.nodesMap x = true →
        mhas (fps.foldl (processFollow d c ev.pubkey) s).nodesMap x = true) := by
    intro fps
    induction fps with
    | nil => intro s hs ha; exact ⟨hs, fun x hx => hx⟩
    | cons fp fps ih =>
        intro s hs ha
        rw [List.foldl_cons]
        have h1 := CInv_processFollow (d := d) (c := c) (y := fp) hs ha
        have h2 := ih _ h1 (processFollow_nodes_mono ha)
        exact ⟨h2.1, fun x hx => h2.2 x (processFollow_nodes_mono hx)⟩
  exact key _ _ base hauthor

theorem CInv_admin {st : CState} (hinv : CInv st) (pr : List String)
    (q : List (String × Nat)) (bt : List (List (String × Nat)))
    (hq : ∀ x ∈ q, x ∈ st.toProcess) :
    CInv { st with processed := pr, toProcess := q, batchTrace := bt } :=
  { val_lb := hinv.val_lb, val_ub := hinv.val_ub, node_id := hinv.node_id
    link_key := hinv.link_key, link_flag := hinv.link_flag
    link_src := hinv.link_src, link_tgt := hinv.link_tgt
    keys_nodup := hinv.keys_nodup
    queue_in := fun x hx => hinv.queue_in x (hq x hx)
    enq_nodup := hinv.enq_nodup, enq_in := hinv.enq_in }

theorem stepBatch_inv {db : List NEvent} {depth : Nat} {st : CState}
    (hinv : CInv st) : CInv (stepBatch db depth st) := by
  unfold stepBatch
  dsimp only
  have hrest := CInv_admin hinv st.processed (st.toProcess.drop 50)
    (st.batchTrace ++ [st.toProcess.take 50]) (fun x hx => List.drop_subset _ _ hx)
  split
  · exact CInv_processed_change hrest _
  · have main : ∀ (evs : List NEvent) (s : CState),
        CInv s →
        (∀ e ∈ evs, mhas s.nodesMap e.pubkey = true) →
        CInv (evs.foldl
          (processEvent depth ((st.toProcess.head?.map Prod.snd).getD 0)) s) := by
      intro evs
      induction evs with
      | nil => intro s hs _; exact hs
      | cons e es ih =>
          intro s hs hall
          rw [List.foldl_cons]
          have h1 := processEvent_inv_mono (d := depth)
            (c := (st.toProcess.head?.map Prod.snd).getD 0)
            hs (hall e (List.mem_cons_self _ _))
          exact ih _ h1.1
            (fun e2 he2 => h1.2 _ (hall e2 (List.mem_cons_of_mem _ he2)))
    apply main
    · exact hrest
    · intro e he
      obtain ⟨hpk, _⟩ := queryAuthors_mem he
      rcases List.mem_map.mp hpk with ⟨q, hq, hqe⟩
      rw [← hqe]
      exact hinv.queue_in q (List.take_subset _ _ hq)

theorem collectLoop_inv {db : List NEvent} {depth : Nat} :
    ∀ (fuel : Nat) (st st' : CState), CInv st →
      collectLoop db depth fuel st = some st' → CInv st' := by
  intro fuel
  induction fuel with
  | zero =>
      intro st st' hst h
      unfold collectLoop at h
      by_cases he : st.toProcess.isEmpty
      · rw [if_pos he] at h
        obtain rfl : st = st' := by simpa using h
        exact hst
      · rw [if_neg he] at h
        exact absurd h (by simp)
  | succ n ih =>
      intro st st' hst h
      unfold collectLoop at h
      by_cases he : st.toProcess.isEmpty
      · rw [if_pos he] at h
        obtain rfl : st = st' := by simpa using h
        exact hst
      · rw [if_neg he] at h
        exact ih _ _ (stepBatch_inv hst) h

theorem collectRun_inv {db : List NEvent} {depth : Nat} {st : CState}
    (hst : CInv st) : CInv (collectRun db depth st) := by
  unfold collectRun
  cases h : collectLoop db depth (collectMeasure db st + 1) st with
  | none => simpa using hst
  | some st' => simpa using collectLoop_inv _ _ _ hst h

theorem CInv_initRoot (r : String) : CInv (initRoot r) := by
  refine ⟨?_, ?_, ?_, ?_, ?_, ?_, ?_, ?_, ?_, ?_, ?_⟩ <;>
    simp [initRoot] <;> norm_num [mhas]

theorem CInv_initGlobal (db : List NEvent) (limit : Nat) :
    CInv (initGlobal db limit) := by
  unfold initGlobal
  apply foldl_inv (P := CInv)
  · refine ⟨?_, ?_, ?_, ?_, ?_, ?_, ?_, ?_, ?_, ?_, ?_⟩ <;> simp
  · intro x ev hx _
    by_cases hp : ev.pubkey ∈ x.processed
    · simpa [hp] using hx
    · simp only [hp, if_false, decide_False]
      refine
        { val_lb := ?_, val_ub := ?_, node_id := ?_
          link_key := hx.link_key, link_flag := hx.link_flag
          link_src := fun p hp2 => mhas_mset_mono (hx.link_src p hp2)
          link_tgt := fun p hp2 => mhas_mset_mono (hx.link_tgt p hp2)
          keys_nodup := hx.keys_nodup
          queue_in := ?_
          enq_nodup := hx.enq_nodup
          enq_in := fun y hy => mhas_mset_mono (hx.enq_in y hy) }
      · intro p hp2
        rcases mem_mset hp2 with h | rfl
        · exact hx.val_lb p h
        · norm_num
      · intro p hp2
        rcases mem_mset hp2 with h | rfl
        · exact hx.val_ub p h
        · norm_num
      · intro p hp2
        rcases mem_mset hp2 with h | rfl
        · exact hx.node_id p h
        · rfl
      · intro q hq
        rcases List.mem_append.mp hq with h | h
        · exact mhas_mset_mono (hx.queue_in q h)
        · obtain rfl : q = (ev.pubkey, 0) := by simpa using h
          exact mhas_mset_self _ _ _

/-! ## Analytics preservation lemmas -/

theorem degreePass_mem {m : List (String × GraphNode)} {links : List GraphLink} :
    ∀ p ∈ degreePass m links, ∃ q ∈ m, p.1 = q.1 ∧ p.2.val = q.2.val ∧ p.2.id = q.2.id := by
  unfold degreePass
  refine foldl_inv (P := fun m2 : List (String × GraphNode) => ∀ p ∈ m2,
      ∃ q ∈ m, p.1 = q.1 ∧ p.2.val = q.2.val ∧ p.2.id = q.2.id)
    (fun p hp => ⟨p, hp, rfl, rfl, rfl⟩) ?_
  intro x l hx _ p hp
  rcases mem_mupdate hp with ⟨q1, hq1, hpe⟩
  have step1 : ∀ r ∈ mupdate x l.source
      (fun n => { n with outDegree := n.outDegree + 1 }),
      ∃ q ∈ m, r.1 = q.1 ∧ r.2.val = q.2.val ∧ r.2.id = q.2.id := by
    intro r hr
    rcases mem_mupdate hr with ⟨q2, hq2, hre⟩
    rcases hx q2 hq2 with ⟨q3, hq3, he1, he2, he3⟩
    rcases hre with rfl | rfl
    · exact ⟨q3, hq3, he1, he2, he3⟩
    · exact ⟨q3, hq3, he1, he2, he3⟩
  rcases hpe with rfl | rfl
  · exact step1 p hq1
  · rcases step1 q1 hq1 with ⟨q3, hq3, he1, he2, he3⟩
    exact ⟨q3, hq3, he1, he2, he3⟩

theorem degreePass_keys (m : List (String × GraphNode)) (links : List GraphLink) :
    (degreePass m links).map Prod.fst = m.map Prod.fst := by
  unfold degreePass
  refine foldl_inv
    (P := fun m2 : List (String × GraphNode) => m2.map Prod.fst = m.map Prod.fst) rfl ?_
  intro x l hx _
  rw [mkeys_mupdate, mkeys_mupdate, hx]

theorem hubPass_val {nodes : List GraphNode}
    (h : ∀ n ∈ nodes, 3 ≤ n.val ∧ n.val ≤ 20) :
    ∀ n ∈ hubPass nodes, 3 ≤ n.val ∧ n.val ≤ 30 := by
  intro n hn
  unfold hubPass at hn
  rcases List.mem_map.mp hn with ⟨m, hm, rfl⟩
  obtain ⟨h3, h20⟩ := h m hm
  dsimp only
  constructor
  · split <;> exact le_trans h3 (le_max_left _ _)
  · have hd5 : min (((m.inDegree : ℚ) + (m.outDegree : ℚ)) / 5) 15 ≤ 15 := min_le_right _ _
    have hd2 : min (((m.inDegree : ℚ) + (m.outDegree : ℚ)) / 2) 7 ≤ 7 := min_le_right _ _
    split
    · apply max_le <;> linarith
    · apply max_le <;> linarith

theorem hubPass_ids (nodes : List GraphNode) :
    (hubPass nodes).map (fun n => n.id) = nodes.map (fun n => n.id) := by
  unfold hubPass
  rw [List.map_map]
  apply List.map_congr_left
  intro n _
  rfl

theorem updateFirst_forall {α : Type} {P : α → Prop} {l : List α} {t : α → Bool}
    {f : α → α} (h : ∀ a ∈ l, P a) (hf : ∀ a, P a → P (f a)) :
    ∀ a ∈ updateFirst l t f, P a := by
  induction l with
  | nil => intro a ha; simp [updateFirst] at ha
  | cons b bs ih =>
      intro a ha
      unfold updateFirst at ha
      by_cases hb : t b = true
      · rw [if_pos hb] at ha
        rcases List.mem_cons.mp ha with rfl | h2
        · exact hf b (h b (List.mem_cons_self _ _))
        · exact h a (List.mem_cons_of_mem _ h2)
      · rw [if_neg hb] at ha
        rcases List.mem_cons.mp ha with rfl | h2
        · exact h a (List.mem_cons_self _ _)
        · exact ih (fun c hc => h c (List.mem_cons_of_mem _ hc)) a h2

theorem updateFirst_map {α β : Type} {l : List α} {t : α → Bool} {f : α → α}
    {g : α → β} (hf : ∀ a, g (f a) = g a) :
    (updateFirst l t f).map g = l.map g := by
  induction l with
  | nil => rfl
  | cons b bs ih =>
      unfold updateFirst
      by_cases hb : t b = true
      · rw [if_pos hb]
        simp [hf b]
      · rw [if_neg hb]
        simp [ih]

/-- Node predicates closed under cluster relabelling survive one
`clusterVisit`. -/
theorem clusterVisit_nodesP {P : GraphNode → Prop}
    (hP : ∀ n c, P n → P { n with cluster := some c }) {cid : Nat}
    {cs : ClusterSt} {id : String} (h : ∀ n ∈ cs.nodes, P n) :
    ∀ n ∈ (clusterVisit cid cs id).nodes, P n := by
  unfold clusterVisit
  exact updateFirst_forall h (fun a ha => hP a cid ha)

theorem clusterVisit_ids {cid : Nat} {cs : ClusterSt} {id : String} :
    (clusterVisit cid cs id).nodes.map (fun n => n.id) =
      cs.nodes.map (fun n => n.id) := by
  unfold clusterVisit
  exact updateFirst_map (fun a => rfl)

theorem clusterRound_nodesP {P : GraphNode → Prop}
    (hP : ∀ n c, P n → P { n with cluster := some c })
    {adj : List (String × List String)} {cid : Nat}
    {start : ClusterSt × List String} {queue : List String}
    (h : ∀ n ∈ start.1.nodes, P n) :
    ∀ n ∈ (clusterRound adj cid start queue).1.nodes, P n := by
  unfold clusterRound
  refine foldl_inv
    (P := fun acc : ClusterSt × List String => ∀ n ∈ acc.1.nodes, P n) h ?_
  intro x cur hx _
  refine foldl_inv
    (P := fun acc : ClusterSt × List String => ∀ n ∈ acc.1.nodes, P n) hx ?_
  intro y nb hy _
  by_cases hc : ((y.1.nodes.find? (fun n => n.id == nb)).isSome ∧ nb ∉ y.1.visited)
  · rw [if_pos hc]
    exact clusterVisit_nodesP hP hy
  · rw [if_neg hc]
    exact hy

theorem clusterRound_ids {adj : List (String × List String)} {cid : Nat}
    {start : ClusterSt × List String} {queue : List String} :
    (clusterRound adj cid start queue).1.nodes.map (fun n => n.id) =
      start.1.nodes.map (fun n => n.id) := by
  unfold clusterRound
  refine foldl_inv
    (P := fun acc : ClusterSt × List String => acc.1.nodes.map (fun n => n.id) =
      start.1.nodes.map (fun n => n.id)) rfl ?_
  intro x cur hx _
  refine foldl_inv
    (P := fun acc : ClusterSt × List String => acc.1.nodes.map (fun n => n.id) =
      start.1.nodes.map (fun n => n.id)) hx ?_
  intro y nb hy _
  by_cases hc : ((y.1.nodes.find? (fun n => n.id == nb)).isSome ∧ nb ∉ y.1.visited)
  · rw [if_pos hc]
    rw [← hy]
    exact clusterVisit_ids
  · rw [if_neg hc]
    exact hy

theorem assignClusters_nodesP {P : GraphNode → Prop}
    (hP : ∀ n c, P n → P { n with cluster := some c })
    {nodes : List GraphNode} {s : List GraphLink}
    (h : ∀ n ∈ nodes, P n) :
    ∀ n ∈ (assignClusters nodes s).nodes, P n := by
  unfold assignClusters
  refine foldl_inv (P := fun cs : ClusterSt => ∀ n ∈ cs.nodes, P n) h ?_
  intro cs id hcs _
  unfold clusterSeed
  by_cases hv : id ∈ cs.visited
  · rw [if_pos hv]; exact hcs
  · rw [if_neg hv]
    exact clusterRound_nodesP hP (clusterRound_nodesP hP (clusterVisit_nodesP hP hcs))

theorem assignClusters_ids {nodes : List GraphNode} {links : List GraphLink} :
    (assignClusters nodes links).nodes.map (fun n => n.id) =
      nodes.map (fun n => n.id) := by
  unfold assignClusters
  refine foldl_inv (P := fun cs : ClusterSt => cs.nodes.map (fun n => n.id) =
    nodes.map (fun n => n.id)) rfl ?_
  intro cs id hcs _
  unfold clusterSeed
  by_cases hv : id ∈ cs.visited
  · rw [if_pos hv]; exact hcs
  · rw [if_neg hv]
    rw [clusterRound_ids, clusterRound_ids, clusterVisit_ids]
    exact hcs

theorem calcDeg_mem {nodes : List GraphNode} {links : List GraphLink}
    {r : String} :
    ∀ n ∈ calculateDegreesOfSeparation nodes links r,
      ∃ m ∈ nodes, n.val = m.val ∧ n.id = m.id := by
  unfold calculateDegreesOfSeparation
  intro n hn
  rcases List.mem_map.mp hn with ⟨m, hm, rfl⟩
  exact ⟨m, hm, rfl, rfl⟩

theorem calcDeg_ids (nodes : List GraphNode) (links : List GraphLink)
    (r : String) :
    (calculateDegreesOfSeparation nodes links r).map (fun n => n.id) =
      nodes.map (fun n => n.id) := by
  unfold calculateDegreesOfSeparation
  rw [List.map_map]
  apply List.map_congr_left
  intro n _
  rfl

theorem runAnalytics_val {ref : Option String} {nm : List (String × GraphNode)}
    {lm : List (String × GraphLink)}
    (h : ∀ p ∈ nm, 3 ≤ p.2.val ∧ p.2.val ≤ 20) :
    ∀ n ∈ (runAnalytics ref nm lm).nodes, 3 ≤ n.val ∧ n.val ≤ 30 := by
  unfold runAnalytics
  dsimp only
  have h1 : ∀ q ∈ (degreePass nm (lm.map Prod.snd)).map Prod.snd,
      3 ≤ q.val ∧ q.val ≤ 20 := by
    intro q hq
    rcases List.mem_map.mp hq with ⟨p, hp, rfl⟩
    rcases degreePass_mem p hp with ⟨p0, hp0, _, hv, _⟩
    rw [hv]
    exact h p0 hp0
  have h2 := hubPass_val h1
  have h3 := assignClusters_nodesP (P := fun n => 3 ≤ n.val ∧ n.val ≤ 30)
    (fun n c hn => hn) (s := bidirPass (lm.map Prod.snd)) h2
  cases ref with
  | none => exact h3
  | some r =>
      intro n hn
      rcases calcDeg_mem n hn with ⟨m, hm, hv, _⟩
      rw [hv]
      exact h3 m hm

/-- CInv for the collector's final state, both seeding modes. -/
theorem webOfTrust_final_inv (db : List NEvent) (startPubkey : Option String)
    (depth limit : Nat) :
    CInv (collectRun db depth
      (match startPubkey with
       | some r => initRoot r
       | none => initGlobal db limit)) := by
  cases startPubkey with
  | none => exact collectRun_inv (CInv_initGlobal db limit)
  | some r => exact collectRun_inv (CInv_initRoot r)

/-- Database for the C2 counterexample: the root follows 26 identities,
so it becomes a hub of total degree 26 and its recomputed importance is
`15 + 26/5 = 20.2 > 20`. -/
def cx2targets : List String :=
  ["T0", "T1", "T2", "T3", "T4", "T5", "T6", "T7", "T8", "T9", "T10", "T11",
   "T12", "T13", "T14", "T15", "T16", "T17", "T18", "T19", "T20", "T21",
   "T22", "T23", "T24", "T25"]

def cx2db : List NEvent :=
  [{ pubkey := "A", created_at := 1, tags := cx2targets.map (fun t => ("p", t)) }]

set_option maxRecDepth 100000 in
/-- C2 counterexample: after the full collection-plus-analytics run on
`cx2db` some node's importance exceeds 20 (the hub recomputation is not
capped at 20). -/
theorem C2_counterexample :
    ∃ n ∈ (webOfTrustRun cx2db (some "A") 1 100 none).nodes, ¬ (n.val ≤ 20) := by
  have h : ((webOfTrustRun cx2db (some "A") 1 100 none).nodes.any
      (fun n => decide (20 < n.val))) = true := by
    with_unfolding_all rfl
  obtain ⟨n, hn, hlt⟩ := List.any_eq_true.mp h
  exact ⟨n, hn, not_le.mpr (of_decide_eq_true hlt)⟩

/-- C2 (amended): over every run of the full pipeline each node's
importance lies between the minimum seed value 3 and 30: the collection
increments keep it in `[3, 20]`, and the analytics recomputation — a
monotone increase — can raise a hub's value up to `15 + 15 = 30`
(which the C2 counterexample shows can indeed exceed 20). -/
theorem C2_importance_bounds (db : List NEvent) (startPubkey : Option String)
    (depth limit : Nat) (referenceUser : Option String) :
    ∀ n ∈ (webOfTrustRun db startPubkey depth limit referenceUser).nodes,
      3 ≤ n.val ∧ n.val ≤ 30 := by
  unfold webOfTrustRun
  dsimp only
  have hinv := webOfTrust_final_inv db startPubkey depth limit
  exact runAnalytics_val (fun p hp => ⟨hinv.val_lb p hp, hinv.val_ub p hp⟩)

/-- The single node of the Scenario C snapshot: the self-follow bumps
the root's seed value 10 to 11 and the analytics leave it there. -/
def w2node : GraphNode :=
  { id := "A", val := 11, inDegree := 1, outDegree := 1, isHub := false,
    cluster := some 0, degreesFromRoot := none }

/-- Witness for C2 on the Scenario C run. -/
theorem C2_witness : 3 ≤ w2node.val ∧ w2node.val ≤ 30 :=
  C2_importance_bounds scdb (some "A") 1 100 none w2node
    (by
      have h : (webOfTrustRun scdb (some "A") 1 100 none).nodes = [w2node] := by
        with_unfolding_all rfl
      rw [h]
      exact List.mem_singleton_self _)

/-! ## C8: no dangling edges, no duplicate edges -/

theorem runAnalytics_ids {o : Option String} {m : List (String × GraphNode)}
    {l : List (String × GraphLink)} (hid : ∀ p ∈ m, p.2.id = p.1) :
    (runAnalytics o m l).nodes.map (fun n => n.id) = m.map Prod.fst := by
  unfold runAnalytics
  dsimp only
  have hdeg : ∀ p ∈ degreePass m (l.map Prod.snd), p.2.id = p.1 := by
    intro p hp
    rcases degreePass_mem p hp with ⟨q, hq, he1, _, he3⟩
    rw [he3, hid q hq, he1]
  have hbase : ((degreePass m (l.map Prod.snd)).map Prod.snd).map (fun n => n.id) =
      m.map Prod.fst := by
    rw [List.map_map]
    calc ((degreePass m (l.map Prod.snd)).map ((fun n => n.id) ∘ Prod.snd))
        = (degreePass m (l.map Prod.snd)).map Prod.fst :=
          List.map_congr_left (fun p hp => hdeg p hp)
      _ = m.map Prod.fst := degreePass_keys _ _
  cases o with
  | none => rw [assignClusters_ids, hubPass_ids, hbase]
  | some r => rw [calcDeg_ids, assignClusters_ids, hubPass_ids, hbase]

theorem runAnalytics_links {o : Option String} {m : List (String × GraphNode)}
    {l : List (String × GraphLink)} :
    (runAnalytics o m l).links = bidirPass (l.map Prod.snd) := by
  unfold runAnalytics
  cases o <;> rfl

theorem analytics_c8 (ref : Option String) (nm : List (String × GraphNode))
    (lm : List (String × GraphLink))
    (hid : ∀ p ∈ nm, p.2.id = p.1)
    (hkey : ∀ p ∈ lm, p.1 = linkKey p.2)
    (hnodup : (lm.map Prod.fst).Nodup)
    (hsrc : ∀ p ∈ lm, mhas nm p.2.source = true)
    (htgt : ∀ p ∈ lm, mhas nm p.2.target = true) :
    (∀ l ∈ (runAnalytics ref nm lm).links,
        (∃ n ∈ (runAnalytics ref nm lm).nodes, n.id = l.source) ∧
        (∃ n ∈ (runAnalytics ref nm lm).nodes, n.id = l.target)) ∧
    (runAnalytics ref nm lm).links.Pairwise
      (fun a b => ¬ (a.source = b.source ∧ a.target = b.target)) := by
  have hids := runAnalytics_ids (o := ref) (l := lm) hid
  have hlinks := runAnalytics_links (o := ref) (m := nm) (l := lm)
  constructor
  · intro l hl
    rw [hlinks] at hl
    unfold bidirPass at hl
    rcases List.mem_map.mp hl with ⟨l0, hl0, rfl⟩
    rcases List.mem_map.mp hl0 with ⟨p, hp, rfl⟩
    constructor
    · have hmem : (bidirMark (lm.map Prod.snd) p.2).source ∈
          (runAnalytics ref nm lm).nodes.map (fun n => n.id) := by
        rw [hids]
        exact mhas_eq_keys_mem.mp (hsrc p hp)
      rcases List.mem_map.mp hmem with ⟨n, hn, he⟩
      exact ⟨n, hn, he⟩
    · have hmem : (bidirMark (lm.map Prod.snd) p.2).target ∈
          (runAnalytics ref nm lm).nodes.map (fun n => n.id) := by
        rw [hids]
        exact mhas_eq_keys_mem.mp (htgt p hp)
      rcases List.mem_map.mp hmem with ⟨n, hn, he⟩
      exact ⟨n, hn, he⟩
  · rw [hlinks]
    unfold bidirPass
    have hkeys : (lm.map Prod.fst) = (lm.map Prod.snd).map linkKey := by
      rw [List.map_map]
      exact List.map_congr_left (fun p hp => hkey p hp)
    have hnd : ((lm.map Prod.snd).map linkKey).Nodup := by
      rw [← hkeys]; exact hnodup
    have hpair : (lm.map Prod.snd).Pairwise
        (fun a b => linkKey a ≠ linkKey b) := List.pairwise_map.mp hnd
    refine List.pairwise_map.mpr (hpair.imp ?_)
    intro a b hne hc
    have h1 : a.source = b.source := hc.1
    have h2 : a.target = b.target := hc.2
    exact hne (by unfold linkKey; rw [h1, h2])

/-- C8: over every run of the pipeline (the modelled fetcher returns
only records authored by the queried identities, as the claim assumes),
every edge's source and target have a corresponding node in the
snapshot's node set, and no two edges share the same ordered
(source, target) pair. -/
theorem C8_no_dangling_no_duplicate (db : List NEvent)
    (startPubkey : Option String) (depth limit : Nat)
    (referenceUser : Option String) :
    (∀ l ∈ (webOfTrustRun db startPubkey depth limit referenceUser).links,
        (∃ n ∈ (webOfTrustRun db startPubkey depth limit referenceUser).nodes,
            n.id = l.source) ∧
        (∃ n ∈ (webOfTrustRun db startPubkey depth limit referenceUser).nodes,
            n.id = l.target)) ∧
    (webOfTrustRun db startPubkey depth limit referenceUser).links.Pairwise
      (fun a b => ¬ (a.source = b.source ∧ a.target = b.target)) := by
  cases startPubkey with
  | none =>
      have hinv : CInv (collectRun db depth (initGlobal db limit)) :=
        collectRun_inv (CInv_initGlobal db limit)
      exact analytics_c8 referenceUser _ _ hinv.node_id hinv.link_key
        hinv.keys_nodup hinv.link_src hinv.link_tgt
  | some r =>
      have hinv : CInv (collectRun db depth (initRoot r)) :=
        collectRun_inv (CInv_initRoot r)
      exact analytics_c8 referenceUser _ _ hinv.node_id hinv.link_key
        hinv.keys_nodup hinv.link_src hinv.link_tgt

/-! ## C4: termination, unique enqueues, Scenario C -/

theorem filter_length_mono {l : List String} {p q : String → Bool}
    (h : ∀ x ∈ l, q x = true → p x = true) :
    (l.filter q).length ≤ (l.filter p).length := by
  induction l with
  | nil => simp
  | cons a as ih =>
      have ih2 := ih (fun x hx hq => h x (List.mem_cons_of_mem _ hx) hq)
      by_cases hq : q a = true
      · have hp := h a (List.mem_cons_self _ _) hq
        simp only [List.filter_cons, hq, hp, if_true]
        simpa using ih2
      · rw [Bool.not_eq_true] at hq
        simp only [List.filter_cons, hq, Bool.false_eq_true, if_false]
        by_cases hp : p a = true
        · simp only [hp, if_true, List.length_cons]
          omega
        · rw [Bool.not_eq_true] at hp
          simp only [hp, Bool.false_eq_true, if_false]
          exact ih2

theorem filter_length_strict {l : List String} {p q : String → Bool} {x : String}
    (hx : x ∈ l) (hpx : p x = true) (hqx : q x = false)
    (h : ∀ y ∈ l, q y = true → p y = true) :
    (l.filter q).length < (l.filter p).length := by
  induction l with
  | nil => simp at hx
  | cons a as ih =>
      have hmono : (as.filter q).length ≤ (as.filter p).length :=
        filter_length_mono (fun y hy hq => h y (List.mem_cons_of_mem _ hy) hq)
      rcases List.mem_cons.mp hx with rfl | hx2
      · simp only [List.filter_cons, hpx, hqx, if_true]
        simp only [Bool.false_eq_true, if_false, List.length_cons]
        omega
      · have ih2 := ih hx2 (fun y hy hq => h y (List.mem_cons_of_mem _ hy) hq)
        by_cases hq : q a = true
        · have hp := h a (List.mem_cons_self _ _) hq
          simp only [List.filter_cons, hq, hp, if_true, List.length_cons]
          omega
        · rw [Bool.not_eq_true] at hq
          simp only [List.filter_cons, hq, Bool.false_eq_true, if_false]
          by_cases hp : p a = true
          · simp only [hp, if_true, List.length_cons]
            omega
          · rw [Bool.not_eq_true] at hp
            simp only [hp, Bool.false_eq_true, if_false]
            exact ih2

theorem processFollow_measure {db : List NEvent} {depth cl : Nat}
    {author fp : String} {st : CState} (hfp : fp ∈ dbTargets db) :
    collectMeasure db (processFollow depth cl author st fp) ≤
      collectMeasure db st := by
  unfold collectMeasure
  rw [processFollow_toProcess depth cl author fp st,
      processFollow_nodesMap depth cl author fp st]
  by_cases h2 : mhas st.nodesMap fp = true
  · have henq : ¬ enqCond depth cl st fp := fun hc => hc.1 h2
    rw [if_pos h2, if_neg henq]
    have hfeq : (dbTargets db).filter
        (fun p => ¬ mhas (mupdate st.nodesMap fp
          (fun n => { n with val := min (n.val + 1) 20 })) p) =
        (dbTargets db).filter (fun p => ¬ mhas st.nodesMap p) := by
      apply List.filter_congr
      intro x _
      simp [mhas_mupdate]
    rw [hfeq]
    simp
  · rw [if_neg h2]
    by_cases hc : enqCond depth cl st fp
    · rw [if_pos hc]
      have hstrict : ((dbTargets db).filter (fun p => ¬ mhas (mset st.nodesMap fp
            { id := fp, val := 3, inDegree := 0, outDegree := 0, isHub := false }) p)).length <
          ((dbTargets db).filter (fun p => ¬ mhas st.nodesMap p)).length := by
        apply filter_length_strict (x := fp) hfp
        · simp [h2]
        · simp [mhas_mset_self]
        · intro y hy hqy
          simp only [decide_eq_true_eq] at hqy ⊢
          intro hmy
          exact hqy (mhas_mset_mono hmy)
      simp only [List.length_append, List.length_cons, List.length_nil]
      omega
    · rw [if_neg hc]
      have hmono : ((dbTargets db).filter (fun p => ¬ mhas (mset st.nodesMap fp
            { id := fp, val := 3, inDegree := 0, outDegree := 0, isHub := false }) p)).length ≤
          ((dbTargets db).filter (fun p => ¬ mhas st.nodesMap p)).length := by
        apply filter_length_mono
        intro y hy hqy
        simp only [decide_eq_true_eq] at hqy ⊢
        intro hmy
        exact hqy (mhas_mset_mono hmy)
      simp only [List.append_nil]
      omega

theorem mem_dbTargets {db : List NEvent} {ev : NEvent} {fp : String}
    (hev : ev ∈ db)
    (hfp : fp ∈ (ev.tags.filter (fun t => t.1 == "p")).map Prod.snd) :
    fp ∈ dbTargets db := by
  unfold dbTargets
  rw [List.mem_dedup]
  apply List.mem_flatten.mpr
  exact ⟨(ev.tags.filter (fun t => t.1 == "p")).map Prod.snd,
    List.mem_map.mpr ⟨ev, hev, rfl⟩, hfp⟩

theorem processEvent_measure {db : List NEvent} {depth cl : Nat} {st : CState}
    {ev : NEvent} (hev : ev ∈ db) :
    collectMeasure db (processEvent depth cl st ev) ≤ collectMeasure db st := by
  unfold processEvent
  have h0 : collectMeasure db { st with processed := sadd st.processed ev.pubkey } =
      collectMeasure db st := rfl
  rw [← h0]
  refine foldl_inv (P := fun x : CState =>
    collectMeasure db x ≤
      collectMeasure db { st with processed := sadd st.processed ev.pubkey })
    le_rfl ?_
  intro x fp hx hfp
  exact le_trans (processFollow_measure (mem_dbTargets hev hfp)) hx

theorem stepBatch_measure {b : List NEvent} {d : Nat} {st : CState}
    (hne : ¬ st.toProcess.isEmpty = true) :
    collectMeasure b (stepBatch b d st) < collectMeasure b st := by
  have hlen : 1 ≤ st.toProcess.length := by
    cases h : st.toProcess with
    | nil => rw [h] at hne; simp at hne
    | cons a as => simp [h]
  have hst1 : collectMeasure b
      { st with toProcess := st.toProcess.drop 50,
                batchTrace := st.batchTrace ++ [st.toProcess.take 50] } <
      collectMeasure b st := by
    unfold collectMeasure
    simp only [List.length_drop]
    omega
  unfold stepBatch
  dsimp only
  split
  · exact hst1
  · refine lt_of_le_of_lt ?_ hst1
    refine foldl_inv (P := fun x : CState =>
      collectMeasure b x ≤ collectMeasure b
        { st with toProcess := st.toProcess.drop 50,
                  batchTrace := st.batchTrace ++ [st.toProcess.take 50] })
      le_rfl ?_
    intro x ev hx hev
    exact le_trans (processEvent_measure (queryAuthors_mem hev).2) hx

theorem collectLoop_succeeds {b : List NEvent} {d : Nat} :
    ∀ (fuel : Nat) (st : CState), collectMeasure b st < fuel →
      ∃ st', collectLoop b d fuel st = some st' := by
  intro fuel
  induction fuel with
  | zero => intro st h; omega
  | succ n ih =>
      intro st h
      unfold collectLoop
      by_cases he : st.toProcess.isEmpty = true
      · exact ⟨st, by rw [if_pos he]⟩
      · rw [if_neg he]
        apply ih
        have := stepBatch_measure (b := b) (d := d) he
        omega

theorem collectRun_eq_loop {b : List NEvent} {d : Nat} {s : CState} :
    ∃ st', collectLoop b d (collectMeasure b s + 1) s = some st' ∧
      collectRun b d s = st' := by
  obtain ⟨st', hst'⟩ := collectLoop_succeeds (b := b) (d := d)
    (collectMeasure b s + 1) s (by omega)
  exact ⟨st', hst', by unfold collectRun; rw [hst']; rfl⟩

/-- C4: (1) the frontier loop terminates for every finite database and
every starting state — an explicit fuel bound makes the loop return;
(2) in both seeding modes, no identity is enqueued twice by the loop
(the ghost enqueue trace is duplicate-free); (3) Scenario C: a record in
which "A" follows itself, at depth 1, yields node set `{A}` and the one
self-loop edge A→A exactly once — no crash and no infinite loop. -/
theorem C4_termination_selfloop :
    (∀ (db : List NEvent) (depth : Nat) (st : CState),
        ∃ fuel st', collectLoop db depth fuel st = some st') ∧
    (∀ (db : List NEvent) (depth limit : Nat) (r : String),
        (collectRun db depth (initRoot r)).enqTrace.Nodup ∧
        (collectRun db depth (initGlobal db limit)).enqTrace.Nodup) ∧
    ((collectRun scdb 1 (initRoot "A")).nodesMap.map Prod.fst = ["A"] ∧
      (collectRun scdb 1 (initRoot "A")).linksMap.map Prod.snd =
        [{ source := "A", target := "A", isBidirectional := false }]) := by
  refine ⟨?_, ?_, ?_, ?_⟩
  · intro db depth st
    obtain ⟨st', h, _⟩ := collectRun_eq_loop (b := db) (d := depth) (s := st)
    exact ⟨collectMeasure db st + 1, st', h⟩
  · intro db depth limit r
    exact ⟨(collectRun_inv (CInv_initRoot r)).enq_nodup,
      (collectRun_inv (CInv_initGlobal db limit)).enq_nodup⟩
  · decide
  · decide

/-! ## C3: batch level discipline -/

/-- Queue/trace level discipline: the levels of everything ever dequeued
followed by the pending queue are non-decreasing, pending levels exceed
the queue head's level by at most one, and the same span bound holds
inside every dequeued batch. -/
structure QInv (st : CState) : Prop where
  join_sorted : ((st.batchTrace.flatten ++ st.toProcess).map Prod.snd).Sorted (· ≤ ·)
  queue_span : ∀ p ∈ st.toProcess, ∀ h, st.toProcess.head? = some h → p.2 ≤ h.2 + 1
  batch_span : ∀ b ∈ st.batchTrace, ∀ p ∈ b, ∀ h, b.head? = some h → p.2 ≤ h.2 + 1

theorem processEvent_queue_shape (depth cl : Nat) (st : CState) (ev : NEvent) :
    ∃ tail : List (String × Nat),
      (processEvent depth cl st ev).toProcess = st.toProcess ++ tail ∧
      (∀ p ∈ tail, p.2 = cl + 1) ∧
      (processEvent depth cl st ev).batchTrace = st.batchTrace := by
  unfold processEvent
  refine foldl_inv (P := fun x : CState =>
    ∃ tail : List (String × Nat), x.toProcess = st.toProcess ++ tail ∧
      (∀ p ∈ tail, p.2 = cl + 1) ∧ x.batchTrace = st.batchTrace)
    ⟨[], by simp, by simp, rfl⟩ ?_
  intro x fp hx _
  obtain ⟨tail, hq, hl, hb⟩ := hx
  rw [processFollow_toProcess, processFollow_batchTrace, hq, hb]
  by_cases hc : enqCond depth cl x fp
  · refine ⟨tail ++ [(fp, cl + 1)], by simp [hc], ?_, rfl⟩
    intro p hp
    rcases List.mem_append.mp hp with h | h
    · exact hl p h
    · obtain rfl : p = (fp, cl + 1) := by simpa using h
      rfl
  · exact ⟨tail, by simp [hc], hl, rfl⟩

theorem stepBatch_shape (db : List NEvent) (depth : Nat) (st : CState) :
    ∃ tail : List (String × Nat),
      (stepBatch db depth st).toProcess = st.toProcess.drop 50 ++ tail ∧
      (∀ p ∈ tail, p.2 = ((st.toProcess.head?.map Prod.snd).getD 0) + 1) ∧
      (stepBatch db depth st).batchTrace =
        st.batchTrace ++ [st.toProcess.take 50] := by
  unfold stepBatch
  dsimp only
  split
  · exact ⟨[], by simp, by simp, rfl⟩
  · refine foldl_inv (P := fun x : CState =>
      ∃ tail : List (String × Nat), x.toProcess = st.toProcess.drop 50 ++ tail ∧
        (∀ p ∈ tail, p.2 = ((st.toProcess.head?.map Prod.snd).getD 0) + 1) ∧
        x.batchTrace = st.batchTrace ++ [st.toProcess.take 50])
      ⟨[], by simp, by simp, rfl⟩ ?_
    intro x ev hx _
    obtain ⟨tail, hq, hl, hb⟩ := hx
    obtain ⟨tail2, hq2, hl2, hb2⟩ :=
      processEvent_queue_shape depth ((st.toProcess.head?.map Prod.snd).getD 0) x ev
    refine ⟨tail ++ tail2, ?_, ?_, ?_⟩
    · rw [hq2, hq, List.append_assoc]
    · intro p hp
      rcases List.mem_append.mp hp with h | h
      · exact hl p h
      · exact hl2 p h
    · rw [hb2, hb]

theorem sorted_of_all_eq {l : List Nat} {c : Nat} (h : ∀ x ∈ l, x = c) :
    l.Sorted (· ≤ ·) := by
  induction l with
  | nil => exact List.sorted_nil
  | cons a as ih =>
      rw [List.sorted_cons]
      refine ⟨?_, ih (fun x hx => h x (List.mem_cons_of_mem _ hx))⟩
      intro b hb
      rw [h a (List.mem_cons_self _ _), h b (List.mem_cons_of_mem _ hb)]

theorem stepBatch_QInv {db : List NEvent} {depth : Nat} {st : CState}
    (hinv : QInv st) (hne : ¬ st.toProcess.isEmpty = true) :
    QInv (stepBatch db depth st) := by
  obtain ⟨h, rest, hq⟩ : ∃ h rest, st.toProcess = h :: rest := by
    cases hqe : st.toProcess with
    | nil => rw [hqe] at hne; simp at hne
    | cons a as => exact ⟨a, as, rfl⟩
  obtain ⟨tail, hq', hlvl, hbt'⟩ := stepBatch_shape db depth st
  have hheadlvl : (st.toProcess.head?.map Prod.snd).getD 0 = h.2 := by
    rw [hq]; rfl
  rw [hheadlvl] at hlvl
  have hspan : ∀ p ∈ st.toProcess, p.2 ≤ h.2 + 1 := by
    intro p hp
    exact hinv.queue_span p hp h (by rw [hq]; rfl)
  have hjs : (st.batchTrace.flatten.map Prod.snd ++
      st.toProcess.map Prod.snd).Sorted (· ≤ ·) := by
    have := hinv.join_sorted
    rwa [List.map_append] at this
  have hqsorted : (st.toProcess.map Prod.snd).Sorted (· ≤ ·) :=
    (List.pairwise_append.mp hjs).2.1
  have hflat_le : ∀ a ∈ st.batchTrace.flatten.map Prod.snd, a ≤ h.2 := by
    intro a ha
    refine (List.pairwise_append.mp hjs).2.2 a ha h.2 ?_
    rw [hq]
    simp
  have hq_ge : ∀ p ∈ st.toProcess, h.2 ≤ p.2 := by
    intro p hp
    rw [hq] at hp hqsorted
    rcases List.mem_cons.mp hp with rfl | hp2
    · exact le_refl _
    · exact (List.sorted_cons.mp (by simpa using hqsorted)).1 p.2
        (List.mem_map.mpr ⟨p, hp2, rfl⟩)
  constructor
  · -- join_sorted
    rw [hbt', hq']
    have hlist : (st.batchTrace ++ [st.toProcess.take 50]).flatten ++
        (st.toProcess.drop 50 ++ tail) =
        (st.batchTrace.flatten ++ st.toProcess) ++ tail := by
      rw [List.flatten_append]
      simp only [List.flatten_cons, List.flatten_nil, List.append_nil,
        List.append_assoc, ← List.append_assoc (List.take 50 st.toProcess),
        List.take_append_drop]
    rw [hlist, List.map_append]
    refine List.pairwise_append.mpr ⟨hinv.join_sorted, ?_, ?_⟩
    · refine sorted_of_all_eq (c := h.2 + 1) ?_
      intro x hx
      rcases List.mem_map.mp hx with ⟨p, hp, rfl⟩
      exact hlvl p hp
    · intro a ha b hb
      rcases List.mem_map.mp hb with ⟨p, hp, rfl⟩
      rw [hlvl p hp]
      rw [List.map_append] at ha
      rcases List.mem_append.mp ha with h1 | h1
      · exact le_trans (hflat_le a h1) (Nat.le_succ _)
      · rcases List.mem_map.mp h1 with ⟨p2, hp2, rfl⟩
        exact hspan p2 hp2
  · -- queue_span
    intro p hp h' hh'
    rw [hq'] at hp hh'
    cases hd : st.toProcess.drop 50 with
    | nil =>
        rw [hd] at hp hh'
        simp only [List.nil_append] at hp hh'
        have hh'2 : h'.2 = h.2 + 1 := hlvl h' (by
          have := List.head?_eq_head (l := tail) ?_
          · exact List.mem_of_mem_head? hh'
          · intro hx
            rw [hx] at hh'
            simp at hh')
        rw [hh'2, hlvl p hp]
        omega
    | cons d ds =>
        rw [hd] at hp hh'
        have hh'd : d = h' := by
          simpa using hh'
        subst hh'd
        have hdq : d ∈ st.toProcess := List.drop_subset 50 _ (by rw [hd]; simp)
        have hdge : h.2 ≤ d.2 := hq_ge d hdq
        rcases List.mem_append.mp hp with h1 | h1
        · have : p ∈ st.toProcess := List.drop_subset 50 _ (by rw [hd]; exact h1)
          have := hspan p this
          omega
        · rw [hlvl p h1]
          omega
  · -- batch_span
    intro b hb p hp h' hh'
    rw [hbt'] at hb
    rcases List.mem_append.mp hb with h1 | h1
    · exact hinv.batch_span b h1 p hp h' hh'
    · obtain rfl : b = st.toProcess.take 50 := by simpa using h1
      have hph : h' = h := by
        rw [hq] at hh'
        have : ((h :: rest).take 50).head? = some h := rfl
        rw [this] at hh'
        simpa using hh'.symm
      subst hph
      exact hspan p (List.take_subset 50 _ hp)

theorem collectLoop_QInv {db : List NEvent} {depth : Nat} :
    ∀ (fuel : Nat) (st st' : CState), QInv st →
      collectLoop db depth fuel st = some st' → QInv st' := by
  intro fuel
  induction fuel with
  | zero =>
      intro st st' hst h
      unfold collectLoop at h
      by_cases he : st.toProcess.isEmpty = true
      · rw [if_pos he] at h
        obtain rfl : st = st' := by simpa using h
        exact hst
      · rw [if_neg he] at h
        exact absurd h (by simp)
  | succ n ih =>
      intro st st' hst h
      unfold collectLoop at h
      by_cases he : st.toProcess.isEmpty = true
      · rw [if_pos he] at h
        obtain rfl : st = st' := by simpa using h
        exact hst
      · rw [if_neg he] at h
        exact ih _ _ (stepBatch_QInv hst he) h

theorem collectRun_QInv {db : List NEvent} {depth : Nat} {st : CState}
    (hst : QInv st) : QInv (collectRun db depth st) := by
  unfold collectRun
  cases h : collectLoop db depth (collectMeasure db st + 1) st with
  | none => simpa using hst
  | some st' => simpa using collectLoop_QInv _ _ _ hst h

theorem QInv_initRoot (r : String) : QInv (initRoot r) := by
  refine ⟨?_, ?_, ?_⟩ <;> simp [initRoot]

theorem initGlobal_shape (db : List NEvent) (limit : Nat) :
    (initGlobal db limit).batchTrace = [] ∧
    ∀ p ∈ (initGlobal db limit).toProcess, p.2 = 0 := by
  unfold initGlobal
  refine foldl_inv (P := fun st : CState =>
    st.batchTrace = [] ∧ ∀ p ∈ st.toProcess, p.2 = 0) ⟨rfl, by simp⟩ ?_
  intro x ev hx _
  by_cases hp : ev.pubkey ∈ x.processed
  · simpa [hp] using hx
  · simp only [hp, if_false, decide_False]
    refine ⟨hx.1, ?_⟩
    intro p hp2
    rcases List.mem_append.mp hp2 with h | h
    · exact hx.2 p h
    · obtain rfl : p = (ev.pubkey, 0) := by simpa using h
      rfl

theorem QInv_initGlobal (db : List NEvent) (limit : Nat) :
    QInv (initGlobal db limit) := by
  obtain ⟨hbt, hlv⟩ := initGlobal_shape db limit
  refine ⟨?_, ?_, ?_⟩
  · rw [hbt]
    simp only [List.flatten_nil, List.nil_append]
    refine sorted_of_all_eq (c := 0) ?_
    intro x hx
    rcases List.mem_map.mp hx with ⟨p, hp, rfl⟩
    exact hlv p hp
  · intro p hp h hh
    rw [hlv p hp]
    omega
  · rw [hbt]
    simp

/-- Database for the C3 counterexample: the root follows 51 identities
(one more than the batch size), and the first of them follows one
further identity at the next level; with depth 3 the third dequeued
batch mixes a level-1 entry with a level-2 entry. -/
def cx3follows : List String :=
  ["a1", "a2", "a3", "a4", "a5", "a6", "a7", "a8", "a9",
   "b1", "b2", "b3", "b4", "b5", "b6", "b7", "b8", "b9",
   "c1", "c2", "c3", "c4", "c5", "c6", "c7", "c8", "c9",
   "d1", "d2", "d3", "d4", "d5", "d6", "d7", "d8", "d9",
   "e1", "e2", "e3", "e4", "e5", "e6", "e7", "e8", "e9",
   "g1", "g2", "g3", "g4", "g5", "g6", "g7"]

def cx3db : List NEvent :=
  [{ pubkey := "R", created_at := 1, tags := cx3follows.map (fun t => ("p", t)) },
   { pubkey := "a1", created_at := 1, tags := [("p", "X")] }]

set_option maxRecDepth 8000 in
/-- C3 counterexample: some dequeued batch of the `cx3db` traversal
mixes two different BFS levels (a level-1 remainder shares a batch with
a level-2 entry), so batches do not all consist of identities at one
level and level-1 work is not complete before level-2 work is dequeued. -/
theorem C3_counterexample :
    ¬ (∀ b ∈ (collectRun cx3db 3 (initRoot "R")).batchTrace,
        ∀ p ∈ b, ∀ q ∈ b, p.2 = q.2) := by
  decide

theorem QInv_conclusions {res : CState} (hinv : QInv res) :
    ((res.batchTrace.flatten.map Prod.snd).Sorted (· ≤ ·)) ∧
    (∀ b ∈ res.batchTrace, ((b.map Prod.snd).Sorted (· ≤ ·)) ∧
      ∀ p ∈ b, ∀ h, b.head? = some h → p.2 ≤ h.2 + 1) := by
  have hflat : ((res.batchTrace.flatten.map Prod.snd).Sorted (· ≤ ·)) := by
    have := hinv.join_sorted
    rw [List.map_append] at this
    exact (List.pairwise_append.mp this).1
  refine ⟨hflat, ?_⟩
  intro b hb
  refine ⟨?_, hinv.batch_span b hb⟩
  have hsub : List.Sublist (b.map Prod.snd)
      (res.batchTrace.flatten.map Prod.snd) :=
    (List.sublist_flatten_of_mem hb).map Prod.snd
  exact hflat.sublist hsub

/-- C3 (amended): in both seeding modes, the identities are dequeued in
non-decreasing level order (the concatenation of all dequeued batches
has non-decreasing levels), and within each batch every level is at
most one above the level of the batch head — so a batch can mix at most
two consecutive levels, which the C3 counterexample shows does happen.
The batch that mixes levels L and L+1 is processed at level L. -/
theorem C3_levels_monotone (db : List NEvent) (depth limit : Nat)
    (startPubkey : Option String) :
    ((collectRun db depth (match startPubkey with
        | some r => initRoot r
        | none => initGlobal db limit)).batchTrace.flatten.map Prod.snd).Sorted
      (· ≤ ·) ∧
    (∀ b ∈ (collectRun db depth (match startPubkey with
        | some r => initRoot r
        | none => initGlobal db limit)).batchTrace,
      ((b.map Prod.snd).Sorted (· ≤ ·)) ∧
      ∀ p ∈ b, ∀ h, b.head? = some h → p.2 ≤ h.2 + 1) := by
  cases startPubkey with
  | none => exact QInv_conclusions (collectRun_QInv (QInv_initGlobal db limit))
  | some r => exact QInv_conclusions (collectRun_QInv (QInv_initRoot r))

/-! ## C7: clustering -/

theorem updateFirst_label {l : List GraphNode} {x : String} {k : Nat}
    (hnd : (l.map (fun n => n.id)).Nodup) (hex : x ∈ l.map (fun n => n.id)) :
    ∀ n2 ∈ updateFirst l (fun n => n.id == x)
      (fun n => { n with cluster := some k }),
      (n2.id = x → n2.cluster = some k) ∧ (n2.id ≠ x → n2 ∈ l) := by
  induction l with
  | nil => simp at hex
  | cons a as ih =>
      intro n2 hn2
      unfold updateFirst at hn2
      by_cases ha : (a.id == x) = true
      · rw [if_pos ha] at hn2
        have hax : a.id = x := eq_of_beq ha
        rcases List.mem_cons.mp hn2 with rfl | h2
        · exact ⟨fun _ => rfl, fun hne => absurd hax hne⟩
        · have hxas : x ∉ as.map (fun n => n.id) := by
            rw [List.map_cons] at hnd
            have := (List.nodup_cons.mp hnd).1
            rwa [hax] at this
          refine ⟨fun he => ?_, fun _ => List.mem_cons_of_mem _ h2⟩
          exact absurd (List.mem_map.mpr ⟨n2, h2, he⟩) hxas
      · rw [if_neg ha] at hn2
        have hax : a.id ≠ x := fun he => ha (by simp [he])
        have hex2 : x ∈ as.map (fun n => n.id) := by
          rw [List.map_cons] at hex
          rcases List.mem_cons.mp hex with h | h
          · exact absurd h.symm hax
          · exact h
        have hnd2 : (as.map (fun n => n.id)).Nodup := by
          rw [List.map_cons] at hnd
          exact (List.nodup_cons.mp hnd).2
        rcases List.mem_cons.mp hn2 with rfl | h2
        · exact ⟨fun he => absurd he hax, fun _ => List.mem_cons_self _ _⟩
        · obtain ⟨h1, h2'⟩ := ih hnd2 hex2 n2 h2
          exact ⟨h1, fun hne => List.mem_cons_of_mem _ (h2' hne)⟩

/-- Fields of the clustering invariant common to the in-region and
between-regions phases. -/
structure CommonInv (ids0 : List String) (cs : ClusterSt) : Prop where
  ids_eq : cs.nodes.map (fun n => n.id) = ids0
  trace_nodup : (cs.trace.map Prod.fst).Nodup
  visited_iff : ∀ x, x ∈ cs.visited ↔ x ∈ cs.trace.map Prod.fst
  trace_in : ∀ p ∈ cs.trace, p.1 ∈ ids0
  labeled : ∀ n ∈ cs.nodes, n.id ∈ cs.visited → n.cluster.isSome = true

/-- Invariant holding between outer seeds. -/
structure COuterInv (ids0 : List String) (cs : ClusterSt) : Prop where
  common : CommonInv ids0 cs
  labels_lt : ∀ p ∈ cs.trace, p.2 < cs.clusterId
  labels_all : ∀ c < cs.clusterId, c ∈ cs.trace.map Prod.snd
  labels_sorted : (cs.trace.map Prod.snd).Sorted (· ≤ ·)

/-- Invariant holding while one seed's region (cluster id `cid`) is
being labelled. -/
structure CRegionInv (ids0 : List String) (cid : Nat) (cs : ClusterSt) : Prop where
  common : CommonInv ids0 cs
  cid_eq : cs.clusterId = cid
  labels_le : ∀ p ∈ cs.trace, p.2 ≤ cid
  labels_prev : ∀ c < cid, c ∈ cs.trace.map Prod.snd
  cid_in : cid ∈ cs.trace.map Prod.snd
  labels_sorted : (cs.trace.map Prod.snd).Sorted (· ≤ ·)

theorem clusterVisit_common {ids0 : List String} {cid : Nat} {cs : ClusterSt}
    {x : String} (hnd0 : ids0.Nodup) (hc : CommonInv ids0 cs)
    (hx : x ∈ ids0) (hfresh : x ∉ cs.visited) :
    CommonInv ids0 (clusterVisit cid cs x) := by
  have htrx : x ∉ cs.trace.map Prod.fst := fun hmem =>
    hfresh ((hc.visited_iff x).mpr hmem)
  have hvis : (clusterVisit cid cs x).visited = cs.visited ++ [x] := by
    unfold clusterVisit sadd
    simp [hfresh]
  refine ⟨?_, ?_, ?_, ?_, ?_⟩
  · rw [show (clusterVisit cid cs x).nodes = updateFirst cs.nodes
      (fun n => n.id == x) (fun n => { n with cluster := some cid }) from rfl]
    have hm := updateFirst_map (l := cs.nodes) (t := fun n => n.id == x)
      (f := fun n : GraphNode => { n with cluster := some cid })
      (g := fun n : GraphNode => n.id) (fun a => rfl)
    rw [hm]
    exact hc.ids_eq
  · show ((cs.trace ++ [(x, cid)]).map Prod.fst).Nodup
    rw [List.map_append]
    simp [List.nodup_append, hc.trace_nodup, htrx]
  · intro y
    rw [hvis]
    show y ∈ cs.visited ++ [x] ↔ y ∈ (cs.trace ++ [(x, cid)]).map Prod.fst
    rw [List.map_append, List.mem_append, List.mem_append, hc.visited_iff y]
    simp
  · intro p hp
    rcases List.mem_append.mp hp with h | h
    · exact hc.trace_in p h
    · obtain rfl : p = (x, cid) := by simpa using h
      exact hx
  · intro n hn hnvis
    rw [hvis] at hnvis
    have hmem := updateFirst_label (x := x) (k := cid)
      (by rw [hc.ids_eq]; exact hnd0) (by rw [hc.ids_eq]; exact hx) n hn
    by_cases hid : n.id = x
    · rw [(hmem.1 hid)]
      rfl
    · have hn2 : n ∈ cs.nodes := hmem.2 hid
      have : n.id ∈ cs.visited := by
        rcases List.mem_append.mp hnvis with h | h
        · exact h
        · exact absurd (by simpa using h) hid
      exact hc.labeled n hn2 this

theorem clusterVisit_region {ids0 : List String} {cid : Nat} {cs : ClusterSt}
    {x : String} (hnd0 : ids0.Nodup) (hr : CRegionInv ids0 cid cs)
    (hx : x ∈ ids0) (hfresh : x ∉ cs.visited) :
    CRegionInv ids0 cid (clusterVisit cid cs x) := by
  refine ⟨clusterVisit_common hnd0 hr.common hx hfresh, hr.cid_eq, ?_, ?_, ?_, ?_⟩
  · intro p hp
    rcases List.mem_append.mp hp with h | h
    · exact hr.labels_le p h
    · obtain rfl : p = (x, cid) := by simpa using h
      exact le_refl _
  · intro c hcid
    show c ∈ (cs.trace ++ [(x, cid)]).map Prod.snd
    rw [List.map_append, List.mem_append]
    exact Or.inl (hr.labels_prev c hcid)
  · show cid ∈ (cs.trace ++ [(x, cid)]).map Prod.snd
    rw [List.map_append, List.mem_append]
    right
    simp
  · show ((cs.trace ++ [(x, cid)]).map Prod.snd).Sorted (· ≤ ·)
    rw [List.map_append]
    refine List.pairwise_append.mpr ⟨hr.labels_sorted, by simp, ?_⟩
    intro a ha b hb
    obtain rfl : b = cid := by simpa using hb
    rcases List.mem_map.mp ha with ⟨p, hp, rfl⟩
    exact hr.labels_le p hp

theorem region_start {ids0 : List String} {cs : ClusterSt} {x : String}
    (hnd0 : ids0.Nodup) (ho : COuterInv ids0 cs) (hx : x ∈ ids0)
    (hfresh : x ∉ cs.visited) :
    CRegionInv ids0 cs.clusterId (clusterVisit cs.clusterId cs x) := by
  refine ⟨clusterVisit_common hnd0 ho.common hx hfresh, rfl, ?_, ?_, ?_, ?_⟩
  · intro p hp
    rcases List.mem_append.mp hp with h | h
    · exact le_of_lt (ho.labels_lt p h)
    · obtain rfl : p = (x, cs.clusterId) := by simpa using h
      exact le_refl _
  · intro c hcid
    show c ∈ (cs.trace ++ [(x, cs.clusterId)]).map Prod.snd
    rw [List.map_append, List.mem_append]
    exact Or.inl (ho.labels_all c hcid)
  · show cs.clusterId ∈ (cs.trace ++ [(x, cs.clusterId)]).map Prod.snd
    rw [List.map_append, List.mem_append]
    right
    simp
  · show ((cs.trace ++ [(x, cs.clusterId)]).map Prod.snd).Sorted (· ≤ ·)
    rw [List.map_append]
    refine List.pairwise_append.mpr ⟨ho.labels_sorted, by simp, ?_⟩
    intro a ha b hb
    obtain rfl : b = cs.clusterId := by simpa using hb
    rcases List.mem_map.mp ha with ⟨p, hp, rfl⟩
    exact le_of_lt (ho.labels_lt p hp)

theorem region_end {ids0 : List String} {cid : Nat} {cs : ClusterSt}
    (hr : CRegionInv ids0 cid cs) :
    COuterInv ids0 { cs with clusterId := cid + 1 } := by
  refine ⟨⟨hr.common.ids_eq, hr.common.trace_nodup, hr.common.visited_iff,
    hr.common.trace_in, hr.common.labeled⟩, ?_, ?_, hr.labels_sorted⟩
  · intro p hp
    exact Nat.lt_succ_of_le (hr.labels_le p hp)
  · intro c hcid
    rcases Nat.lt_succ_iff_lt_or_eq.mp hcid with h | rfl
    · exact hr.labels_prev c h
    · exact hr.cid_in

theorem clusterRound_region {ids0 : List String} {cid : Nat}
    {g : List (String × List String)} (hnd0 : ids0.Nodup) :
    ∀ (start : ClusterSt × List String) (queue : List String),
      CRegionInv ids0 cid start.1 →
      CRegionInv ids0 cid (clusterRound g cid start queue).1 := by
  intro start queue hstart
  unfold clusterRound
  refine foldl_inv
    (P := fun acc : ClusterSt × List String => CRegionInv ids0 cid acc.1) hstart ?_
  intro x cur hx _
  refine foldl_inv
    (P := fun acc : ClusterSt × List String => CRegionInv ids0 cid acc.1) hx ?_
  intro y nb hy _
  by_cases hc : ((y.1.nodes.find? (fun n => n.id == nb)).isSome ∧ nb ∉ y.1.visited)
  · rw [if_pos hc]
    have hnb : nb ∈ ids0 := by
      obtain ⟨n, hn, hpn⟩ := List.find?_isSome.mp hc.1
      rw [← hy.common.ids_eq]
      exact List.mem_map.mpr ⟨n, hn, eq_of_beq hpn⟩
    exact clusterVisit_region hnd0 hy hnb hc.2
  · rw [if_neg hc]
    exact hy

theorem clusterSeed_outer {ids0 : List String}
    {adj : List (String × List String)} (hnd0 : ids0.Nodup) {cs : ClusterSt}
    {x : String} (ho : COuterInv ids0 cs) (hx : x ∈ ids0) :
    COuterInv ids0 (clusterSeed adj cs x) := by
  unfold clusterSeed
  by_cases hv : x ∈ cs.visited
  · rw [if_pos hv]
    exact ho
  · rw [if_neg hv]
    have h1 := region_start hnd0 ho hx hv
    have h2 := clusterRound_region (g := adj) hnd0
      (clusterVisit cs.clusterId cs x, []) [x] h1
    have h3 := clusterRound_region (g := adj) hnd0
      ((clusterRound adj cs.clusterId (clusterVisit cs.clusterId cs x, []) [x]).1, [])
      (clusterRound adj cs.clusterId (clusterVisit cs.clusterId cs x, []) [x]).2 h2
    exact region_end h3

theorem clusterVisit_vis_mono {cid : Nat} {cs : ClusterSt} {x y : String}
    (h : y ∈ cs.visited) : y ∈ (clusterVisit cid cs x).visited := by
  show y ∈ sadd cs.visited x
  unfold sadd
  split
  · exact h
  · exact List.mem_append_left _ h

theorem clusterRound_vis_mono {adj : List (String × List String)} {cid : Nat}
    {y : String} :
    ∀ (start : ClusterSt × List String) (queue : List String),
      y ∈ start.1.visited → y ∈ (clusterRound adj cid start queue).1.visited := by
  intro start queue h
  unfold clusterRound
  refine foldl_inv
    (P := fun acc : ClusterSt × List String => y ∈ acc.1.visited) h ?_
  intro x cur hx _
  refine foldl_inv
    (P := fun acc : ClusterSt × List String => y ∈ acc.1.visited) hx ?_
  intro z nb hz _
  split
  · exact clusterVisit_vis_mono hz
  · exact hz

theorem clusterSeed_vis_mono {adj : List (String × List String)}
    {cs : ClusterSt} {x y : String} (h : y ∈ cs.visited) :
    y ∈ (clusterSeed adj cs x).visited := by
  unfold clusterSeed
  split
  · exact h
  · exact clusterRound_vis_mono _ _ (clusterRound_vis_mono _ _
      (clusterVisit_vis_mono h))

theorem clusterSeed_vis_self {adj : List (String × List String)}
    {cs : ClusterSt} {x : String} : x ∈ (clusterSeed adj cs x).visited := by
  unfold clusterSeed
  by_cases hv : x ∈ cs.visited
  · rw [if_pos hv]
    exact hv
  · rw [if_neg hv]
    refine clusterRound_vis_mono _ _ (clusterRound_vis_mono _ _ ?_)
    show x ∈ sadd cs.visited x
    unfold sadd
    split
    · assumption
    · exact List.mem_append_right _ (by simp)

theorem foldl_mem_inv {α β : Type} {f : α → β → α} {l : List β} {a : α}
    {Q : β → α → Prop}
    (hstep : ∀ x b, Q b (f x b))
    (hmono : ∀ x b c, Q b x → Q b (f x c)) :
    ∀ b ∈ l, Q b (l.foldl f a) := by
  induction l generalizing a with
  | nil => intro b hb; simp at hb
  | cons c cs ih =>
      intro b hb
      rw [List.foldl_cons]
      rcases List.mem_cons.mp hb with rfl | hb2
      · refine foldl_inv (P := Q b) (hstep a b) ?_
        intro x d hx _
        exact hmono x b d hx
      · exact ih b hb2

theorem assignClusters_all_visited {nodes : List GraphNode}
    {links : List GraphLink} :
    ∀ x ∈ nodes.map (fun n => n.id), x ∈ (assignClusters nodes links).visited := by
  unfold assignClusters
  exact foldl_mem_inv
    (Q := fun b (cs : ClusterSt) => b ∈ cs.visited)
    (fun x b => clusterSeed_vis_self)
    (fun x b c h => clusterSeed_vis_mono h)

/-- C7: with distinct node ids (guaranteed for nodes coming from the
collector's map), after the clustering pass every node carries a
cluster label; the ghost assignment trace shows each node id is
assigned exactly once (duplicate-free trace covering exactly the node
ids), the labels are emitted in non-decreasing order (so no label is
reused after a later seed's region starts), and the labels used are
exactly the counter values `0 … clusterId-1` starting at 0. -/
theorem C7_clustering_complete (nodes : List GraphNode) (links : List GraphLink)
    (hnd : (nodes.map (fun n => n.id)).Nodup) :
    (∀ n ∈ (assignClusters nodes links).nodes, n.cluster.isSome = true) ∧
    ((assignClusters nodes links).trace.map Prod.fst).Nodup ∧
    (∀ x, x ∈ (assignClusters nodes links).trace.map Prod.fst ↔
        x ∈ nodes.map (fun n => n.id)) ∧
    ((assignClusters nodes links).trace.map Prod.snd).Sorted (· ≤ ·) ∧
    (∀ p ∈ (assignClusters nodes links).trace,
        p.2 < (assignClusters nodes links).clusterId) ∧
    (∀ c < (assignClusters nodes links).clusterId,
        c ∈ (assignClusters nodes links).trace.map Prod.snd) := by
  have ho : COuterInv (nodes.map (fun n => n.id)) (assignClusters nodes links) := by
    unfold assignClusters
    refine foldl_inv (P := COuterInv (nodes.map (fun n => n.id))) ?_ ?_
    · exact ⟨⟨rfl, by simp, by simp, by simp, by simp⟩, by simp, by simp, by simp⟩
    · intro cs x hcs hx
      exact clusterSeed_outer hnd hcs hx
  refine ⟨?_, ho.common.trace_nodup, ?_, ho.labels_sorted, ho.labels_lt,
    ho.labels_all⟩
  · intro n hn
    refine ho.common.labeled n hn ?_
    refine assignClusters_all_visited n.id ?_
    rw [← ho.common.ids_eq]
    exact List.mem_map.mpr ⟨n, hn, rfl⟩
  · intro x
    constructor
    · intro hx
      rcases List.mem_map.mp hx with ⟨p, hp, rfl⟩
      exact ho.common.trace_in p hp
    · intro hx
      exact (ho.common.visited_iff x).mp (assignClusters_all_visited x hx)

/-- Witness for C7 at a concrete 3-node, one-edge graph. -/
def w7nodes : List GraphNode :=
  [{ id := "A", val := 1, inDegree := 0, outDegree := 0, isHub := false },
   { id := "B", val := 1, inDegree := 0, outDegree := 0, isHub := false },
   { id := "C", val := 1, inDegree := 0, outDegree := 0, isHub := false }]

def w7links : List GraphLink :=
  [{ source := "A", target := "B", isBidirectional := false }]

theorem C7_witness :
    ((w7nodes.map (fun n => n.id)).Nodup) ∧
    (∀ n ∈ (assignClusters w7nodes w7links).nodes, n.cluster.isSome = true) :=
  ⟨by decide, (C7_clustering_complete w7nodes w7links (by decide)).1⟩

/-! ## C5: reference-distance labelling -/

theorem mget_mem {α : Type} {m : List (String × α)} {k : String} {v : α}
    (h : mget m k = some v) : (k, v) ∈ m := by
  unfold mget at h
  cases hf : m.find? (fun p => p.1 == k) with
  | none => rw [hf] at h; exact absurd h (by simp)
  | some p =>
      rw [hf] at h
      obtain ⟨a, b⟩ := p
      have hpk : (a == k) = true := by simpa using List.find?_some hf
      have hpm : (a, b) ∈ m := List.mem_of_find?_eq_some hf
      have ha : a = k := eq_of_beq hpk
      have hb : b = v := by simpa using h
      rw [← ha, ← hb]
      exact hpm

theorem mhas_mget {α : Type} {m : List (String × α)} {k : String}
    (h : mhas m k = true) : ∃ v, mget m k = some v := by
  have hs : (m.find? (fun p => p.1 == k)).isSome := by
    rw [List.find?_isSome]
    rcases List.any_eq_true.mp h with ⟨p, hp, he⟩
    exact ⟨p, hp, he⟩
  unfold mget
  cases hf : m.find? (fun p => p.1 == k) with
  | none => rw [hf] at hs; simp at hs
  | some p => exact ⟨p.2, rfl⟩

theorem mget_append_of_some {α : Type} {m w : List (String × α)} {k : String} {v : α}
    (h : mget m k = some v) : mget (m ++ w) k = some v := by
  unfold mget at *
  rw [List.find?_append]
  cases hf : m.find? (fun p => p.1 == k) with
  | none => rw [hf] at h; exact absurd h (by simp)
  | some p => rw [hf] at h; simpa using h

theorem mhas_append {α : Type} (m w : List (String × α)) (k : String) :
    mhas (m ++ w) k = (mhas m k || mhas w k) := by
  unfold mhas
  exact List.any_append

theorem mhas_of_mem {α : Type} {m : List (String × α)} {p : String × α}
    (h : p ∈ m) : mhas m p.1 = true :=
  List.any_eq_true.mpr ⟨p, h, by simp⟩

theorem adjReach_zero {a : List (String × List String)} {r v : String} :
    adjReach a r 0 v ↔ v = r := Iff.rfl

theorem adjReach_succ {a : List (String × List String)} {r v : String} {n : Nat} :
    adjReach a r (n + 1) v ↔
      adjReach a r n v ∨ ∃ u, adjReach a r n u ∧ v ∈ (mget a u).getD [] := Iff.rfl

theorem linkReach_zero {s : List GraphLink} {r v : String} :
    linkReach s r 0 v ↔ v = r := Iff.rfl

theorem linkReach_succ {s : List GraphLink} {r v : String} {n : Nat} :
    linkReach s r (n + 1) v ↔
      linkReach s r n v ∨ ∃ u, linkReach s r n u ∧ linkAdj s u v := Iff.rfl

/-- The loop body of the neighbour scan inside `bfsStep` (named so the
fold can be reasoned about; identical to the inline closure). -/
def bfsPush (d : Nat) (acc : BfsSt) (nb : String) : BfsSt :=
  if mhas acc.dist nb then acc
  else { dist := acc.dist ++ [(nb, d + 1)], queue := acc.queue ++ [(nb, d + 1)] }

theorem bfsStep_cons (adj : List (String × List String))
    (dist rest : List (String × Nat)) (id : String) (d : Nat) :
    bfsStep adj { dist := dist, queue := (id, d) :: rest } =
      ((mget adj id).getD []).foldl (bfsPush d) { dist := dist, queue := rest } := rfl

theorem bfsPush_spec (d : Nat) (nbs : List String) :
    ∀ a : BfsSt, ∃ news : List (String × Nat),
      (nbs.foldl (bfsPush d) a).dist = a.dist ++ news ∧
      (nbs.foldl (bfsPush d) a).queue = a.queue ++ news ∧
      (∀ p ∈ news, p.2 = d + 1 ∧ p.1 ∈ nbs ∧ mhas a.dist p.1 = false) ∧
      (news.map Prod.fst).Nodup ∧
      (∀ x ∈ nbs, mhas a.dist x = true ∨ x ∈ news.map Prod.fst) := by
  induction nbs with
  | nil => exact fun a => ⟨[], by simp, by simp, by simp, by simp, by simp⟩
  | cons nb rest ih =>
      intro a
      rw [List.foldl_cons]
      cases h : mhas a.dist nb with
      | true =>
          have hstep : bfsPush d a nb = a := by
            unfold bfsPush
            rw [h]
            rfl
          rw [hstep]
          rcases ih a with ⟨news, h1, h2, h3, h4, h5⟩
          refine ⟨news, h1, h2, ?_, h4, ?_⟩
          · intro p hp
            rcases h3 p hp with ⟨e1, e2, e3⟩
            exact ⟨e1, List.mem_cons_of_mem _ e2, e3⟩
          · intro x hx
            rcases List.mem_cons.mp hx with rfl | hx2
            · exact Or.inl h
            · exact h5 x hx2
      | false =>
          have hstep : bfsPush d a nb =
              { dist := a.dist ++ [(nb, d + 1)], queue := a.queue ++ [(nb, d + 1)] } := by
            unfold bfsPush
            rw [h]
            rfl
          rw [hstep]
          rcases ih { dist := a.dist ++ [(nb, d + 1)], queue := a.queue ++ [(nb, d + 1)] } with
            ⟨news1, h1, h2, h3, h4, h5⟩
          have hfreshnb : ∀ p ∈ news1, p.1 ≠ nb := by
            intro p hp hpe
            have he3 : mhas (a.dist ++ [(nb, d + 1)]) p.1 = false := (h3 p hp).2.2
            rw [hpe, mhas_append] at he3
            have ht : mhas [(nb, d + 1)] nb = true :=
              mhas_of_mem (List.mem_singleton_self ((nb, d + 1)))
            rw [ht] at he3
            simp at he3
          refine ⟨(nb, d + 1) :: news1, ?_, ?_, ?_, ?_, ?_⟩
          · rw [h1]
            simp
          · rw [h2]
            simp
          · intro p hp
            rcases List.mem_cons.mp hp with rfl | hp2
            · exact ⟨rfl, List.mem_cons_self _ _, h⟩
            · rcases h3 p hp2 with ⟨e1, e2, e3⟩
              refine ⟨e1, List.mem_cons_of_mem _ e2, ?_⟩
              rw [mhas_append] at e3
              exact (Bool.or_eq_false_iff.mp e3).1
          · rw [List.map_cons]
            refine List.Nodup.cons ?_ h4
            intro hmem
            rcases List.mem_map.mp hmem with ⟨p, hp, hpe⟩
            exact hfreshnb p hp hpe
          · intro x hx
            rcases List.mem_cons.mp hx with rfl | hx2
            · exact Or.inr (by simp)
            · rcases h5 x hx2 with hc | hc
              · rw [mhas_append] at hc
                rcases Bool.or_eq_true_iff.mp hc with hl | hr
                · exact Or.inl hl
                · have : x = nb := by
                    rcases mhas_iff_mem.mp hr with ⟨p, hp, hpx⟩
                    rcases List.mem_singleton.mp hp with rfl
                    exact hpx.symm
                  exact Or.inr (by simp [this])
              · exact Or.inr (List.mem_cons_of_mem _ hc)

/-- Invariant of the BFS of `calculateDegreesOfSeparation`: distances
are recorded once per identity (`keys_nodup`), queued entries are
recorded (`queue_dist`), the queue is processed in non-decreasing
distance order (`queue_sorted`), every recorded distance is within one
of any queued distance (`dist_bound`), every recorded distance is
realizable (`sound`), and every recorded identity is either still
queued or already expanded (`closure`). -/
structure BfsInv (adj : List (String × List String)) (ref : String)
    (st : BfsSt) : Prop where
  keys_nodup : (st.dist.map Prod.fst).Nodup
  queue_dist : ∀ p ∈ st.queue, p ∈ st.dist
  queue_sorted : (st.queue.map Prod.snd).Pairwise (fun a b => a ≤ b)
  dist_bound : ∀ q ∈ st.queue, ∀ p ∈ st.dist, p.2 ≤ q.2 + 1
  sound : ∀ p ∈ st.dist, adjReach adj ref p.2 p.1
  closure : ∀ p ∈ st.dist, p ∈ st.queue ∨
    ∀ nb ∈ (mget adj p.1).getD [], ∃ e, mget st.dist nb = some e ∧ e ≤ p.2 + 1

theorem BfsInv_init (adj : List (String × List String)) (ref : String) :
    BfsInv adj ref { dist := [(ref, 0)], queue := [(ref, 0)] } := by
  refine ⟨?_, ?_, ?_, ?_, ?_, ?_⟩
  · simp
  · intro p hp; exact hp
  · simp
  · intro q hq p hp
    rcases List.mem_singleton.mp hq with rfl
    rcases List.mem_singleton.mp hp with rfl
    simp
  · intro p hp
    rcases List.mem_singleton.mp hp with rfl
    exact adjReach_zero.mpr rfl
  · intro p hp
    exact Or.inl hp

theorem bfsStep_inv {adj : List (String × List String)} {ref : String}
    {st : BfsSt} (hinv : BfsInv adj ref st) : BfsInv adj ref (bfsStep adj st) := by
  obtain ⟨dist, queue⟩ := st
  cases queue with
  | nil => exact hinv
  | cons hd rest =>
      obtain ⟨id, d⟩ := hd
      rw [bfsStep_cons]
      rcases bfsPush_spec d ((mget adj id).getD []) { dist := dist, queue := rest } with
        ⟨news, h1, h2, h3, h4, h5⟩
      simp only at h1 h2 h3 h5
      have hdmem : (id, d) ∈ dist :=
        hinv.queue_dist (id, d) (List.mem_cons_self _ _)
      have hsound_id : adjReach adj ref d id := hinv.sound (id, d) hdmem
      have hbound : ∀ p ∈ dist, p.2 ≤ d + 1 :=
        fun p hp => hinv.dist_bound (id, d) (List.mem_cons_self _ _) p hp
      have hsortedc := hinv.queue_sorted
      rw [List.map_cons, List.pairwise_cons] at hsortedc
      have hdle : ∀ q ∈ rest, d ≤ q.2 :=
        fun q hq => hsortedc.1 q.2 (List.mem_map.mpr ⟨q, hq, rfl⟩)
      have hrest_sorted : (rest.map Prod.snd).Pairwise (fun a b => a ≤ b) := hsortedc.2
      refine ⟨?_, ?_, ?_, ?_, ?_, ?_⟩
      · rw [h1, List.map_append]
        refine hinv.keys_nodup.append h4 ?_
        intro x hx1 hx2
        rcases List.mem_map.mp hx2 with ⟨p, hp, hpe⟩
        have hfresh : mhas dist p.1 = false := (h3 p hp).2.2
        have : mhas dist x = true := mhas_eq_keys_mem.mpr hx1
        rw [← hpe] at this
        rw [this] at hfresh
        exact absurd hfresh (by simp)
      · intro p hp
        rw [h2] at hp
        rw [h1]
        rcases List.mem_append.mp hp with hp | hp
        · exact List.mem_append_left _
            (hinv.queue_dist p (List.mem_cons_of_mem _ hp))
        · exact List.mem_append_right _ hp
      · rw [h2, List.map_append, List.pairwise_append]
        refine ⟨hrest_sorted, ?_, ?_⟩
        · refine sorted_of_all_eq (c := d + 1) ?_
          intro x hx
          rcases List.mem_map.mp hx with ⟨p, hp, hpe⟩
          rw [← hpe]
          exact (h3 p hp).1
        · intro x hx y hy
          rcases List.mem_map.mp hx with ⟨q, hq, hqe⟩
          rcases List.mem_map.mp hy with ⟨p, hp, hpe⟩
          have hqd : q.2 ≤ d + 1 :=
            hbound q (hinv.queue_dist q (List.mem_cons_of_mem _ hq))
          rw [← hqe, ← hpe, (h3 p hp).1]
          exact hqd
      · intro q hq p hp
        rw [h2] at hq
        rw [h1] at hp
        rcases List.mem_append.mp hq with hq | hq
        · rcases List.mem_append.mp hp with hp | hp
          · exact hinv.dist_bound q (List.mem_cons_of_mem _ hq) p hp
          · rw [(h3 p hp).1]
            have := hdle q hq
            omega
        · rw [(h3 q hq).1]
          rcases List.mem_append.mp hp with hp | hp
          · have := hbound p hp
            omega
          · rw [(h3 p hp).1]
            omega
      · intro p hp
        rw [h1] at hp
        rcases List.mem_append.mp hp with hp | hp
        · exact hinv.sound p hp
        · rw [(h3 p hp).1]
          exact adjReach_succ.mpr (Or.inr ⟨id, hsound_id, (h3 p hp).2.1⟩)
      · rw [h1, h2]
        intro p hp
        rcases List.mem_append.mp hp with hp | hp
        · rcases hinv.closure p hp with hq | hcl
          · rcases List.mem_cons.mp hq with heq | hq
            · refine Or.inr ?_
              intro nb hnb
              have hnb' : nb ∈ (mget adj id).getD [] := by
                rw [heq] at hnb
                exact hnb
              rcases h5 nb hnb' with hold | hnew
              · rcases mhas_mget hold with ⟨v, hv⟩
                refine ⟨v, mget_append_of_some hv, ?_⟩
                have : ((nb, v) : String × Nat).2 ≤ d + 1 := hbound (nb, v) (mget_mem hv)
                rw [heq]
                exact this
              · rcases List.mem_map.mp hnew with ⟨q, hq, hqe⟩
                have hqmem : q ∈ dist ++ news := List.mem_append_right _ hq
                have hhas : mhas (dist ++ news) nb = true := by
                  rw [← hqe]
                  exact mhas_of_mem hqmem
                rcases mhas_mget hhas with ⟨v, hv⟩
                have hvmem : (nb, v) ∈ dist ++ news := mget_mem hv
                have hvval : v = d + 1 := by
                  rcases List.mem_append.mp hvmem with hmem | hmem
                  · have : mhas dist nb = true := mhas_of_mem hmem
                    have hfresh : mhas dist q.1 = false := (h3 q hq).2.2
                    rw [hqe] at hfresh
                    rw [this] at hfresh
                    exact absurd hfresh (by simp)
                  · exact (h3 (nb, v) hmem).1
                refine ⟨v, hv, ?_⟩
                rw [hvval, heq]
            · exact Or.inl (List.mem_append_left _ hq)
          · refine Or.inr ?_
            intro nb hnb
            rcases hcl nb hnb with ⟨e, he, hle⟩
            exact ⟨e, mget_append_of_some he, hle⟩
        · exact Or.inl (List.mem_append_right _ hp)

theorem bfsRun_inv {adj : List (String × List String)} {ref : String} :
    ∀ (fuel : Nat) {st : BfsSt}, BfsInv adj ref st →
      BfsInv adj ref (bfsRun adj fuel st) := by
  intro fuel
  induction fuel with
  | zero => intro st h; exact h
  | succ n ih =>
      intro st h
      unfold bfsRun
      by_cases he : st.queue.isEmpty
      · rw [if_pos he]; exact h
      · rw [if_neg he]; exact ih (bfsStep_inv h)

theorem bfsStep_mget {adj : List (String × List String)} {st : BfsSt}
    {k : String} {v : Nat} (h : mget st.dist k = some v) :
    mget (bfsStep adj st).dist k = some v := by
  obtain ⟨dist, queue⟩ := st
  cases queue with
  | nil => exact h
  | cons hd rest =>
      obtain ⟨id, d⟩ := hd
      rw [bfsStep_cons]
      rcases bfsPush_spec d ((mget adj id).getD []) { dist := dist, queue := rest } with
        ⟨news, h1, _, _, _, _⟩
      rw [h1]
      exact mget_append_of_some h

theorem bfsRun_mget {adj : List (String × List String)} :
    ∀ (fuel : Nat) {st : BfsSt} {k : String} {v : Nat},
      mget st.dist k = some v → mget (bfsRun adj fuel st).dist k = some v := by
  intro fuel
  induction fuel with
  | zero => intro st k v h; exact h
  | succ n ih =>
      intro st k v h
      unfold bfsRun
      by_cases he : st.queue.isEmpty
      · rw [if_pos he]; exact h
      · rw [if_neg he]; exact ih (bfsStep_mget h)

theorem mem_adjTargets {adj : List (String × List String)} {u nb : String}
    (h : nb ∈ (mget adj u).getD []) : nb ∈ adjTargets adj := by
  unfold adjTargets
  rw [List.mem_dedup]
  cases hm : mget adj u with
  | none => rw [hm] at h; simp at h
  | some l =>
      rw [hm] at h
      simp only [Option.getD_some] at h
      refine List.mem_flatten.mpr ⟨l, ?_, h⟩
      exact List.mem_map.mpr ⟨(u, l), mget_mem hm, rfl⟩

theorem length_filter_partition {l s : List String} :
    (l.filter (fun x => x ∈ s)).length +
      (l.filter (fun x => ¬ x ∈ s)).length = l.length := by
  induction l with
  | nil => rfl
  | cons a as ih =>
      simp only [List.filter_cons]
      by_cases h : a ∈ s
      · rw [if_pos (by simp [h]), if_neg (by simp [h])]
        simp only [List.length_cons]
        omega
      · rw [if_neg (by simp [h]), if_pos (by simp [h])]
        simp only [List.length_cons]
        omega

theorem filter_filter_of_imp {l : List String} {p q : String → Bool}
    (himp : ∀ x, q x = true → p x = true) :
    (l.filter p).filter q = l.filter q := by
  induction l with
  | nil => rfl
  | cons a as ih =>
      by_cases hp : p a = true
      · by_cases hq : q a = true
        · rw [List.filter_cons_of_pos hp, List.filter_cons_of_pos hq,
              List.filter_cons_of_pos hq, ih]
        · rw [List.filter_cons_of_pos hp, List.filter_cons_of_neg hq,
              List.filter_cons_of_neg hq, ih]
      · have hq : ¬ q a = true := fun hc => hp (himp a hc)
        rw [List.filter_cons_of_neg hp, List.filter_cons_of_neg hq, ih]

theorem filter_length_drop {l s : List String} {p q : String → Bool}
    (himp : ∀ x, q x = true → p x = true)
    (hnd : s.Nodup)
    (hin : ∀ x ∈ s, x ∈ l ∧ p x = true ∧ q x = false) :
    (l.filter q).length + s.length ≤ (l.filter p).length := by
  have h1 : (l.filter q).length = ((l.filter p).filter q).length := by
    rw [filter_filter_of_imp himp]
  have h2 : ((l.filter p).filter q).length ≤
      ((l.filter p).filter (fun x => ¬ x ∈ s)).length := by
    refine filter_length_mono ?_
    intro x hx hq
    by_cases hmem : x ∈ s
    · rw [(hin x hmem).2.2] at hq
      exact absurd hq (by simp)
    · simp [hmem]
  have h3 : s.length ≤ ((l.filter p).filter (fun x => x ∈ s)).length := by
    refine List.Subperm.length_le (List.Nodup.subperm hnd ?_)
    intro x hx
    rw [List.mem_filter, List.mem_filter]
    exact ⟨⟨(hin x hx).1, (hin x hx).2.1⟩, by simp [hx]⟩
  have h4 := length_filter_partition (l := l.filter p) (s := s)
  omega

theorem bfsStep_measure {adj : List (String × List String)} {st : BfsSt}
    (h : st.queue ≠ []) :
    bfsMeasure adj (bfsStep adj st) + 1 ≤ bfsMeasure adj st := by
  obtain ⟨dist, queue⟩ := st
  cases queue with
  | nil => exact absurd rfl h
  | cons hd rest =>
      obtain ⟨id, d⟩ := hd
      rw [bfsStep_cons]
      rcases bfsPush_spec d ((mget adj id).getD []) { dist := dist, queue := rest } with
        ⟨news, h1, h2, h3, h4, h5⟩
      simp only at h1 h2 h3 h5
      unfold bfsMeasure
      rw [h1, h2]
      simp only [List.length_append, List.length_cons]
      have hdrop := filter_length_drop (l := adjTargets adj) (s := news.map Prod.fst)
        (p := fun x => ¬ mhas dist x) (q := fun x => ¬ mhas (dist ++ news) x)
        (by
          intro x hq
          rw [decide_eq_true_eq] at hq ⊢
          intro hd
          exact hq (by rw [mhas_append, hd]; rfl))
        h4
        (by
          intro x hx
          rcases List.mem_map.mp hx with ⟨pp, hpp, hppe⟩
          have hfresh : mhas dist x = false := by rw [← hppe]; exact (h3 pp hpp).2.2
          refine ⟨mem_adjTargets (by rw [← hppe]; exact (h3 pp hpp).2.1), ?_, ?_⟩
          · simp [hfresh]
          · have hhas : mhas (dist ++ news) x = true := by
              rw [mhas_append]
              have : mhas news x = true := by
                rw [← hppe]
                exact mhas_of_mem hpp
              rw [this]
              simp
            simp [hhas])
      have hlen : (news.map Prod.fst).length = news.length := List.length_map _ _
      omega

theorem bfsRun_empty {adj : List (String × List String)} :
    ∀ (fuel : Nat) (st : BfsSt), bfsMeasure adj st ≤ fuel →
      (bfsRun adj fuel st).queue = [] := by
  intro fuel
  induction fuel with
  | zero =>
      intro st hm
      have hq : st.queue.length = 0 := by
        unfold bfsMeasure at hm
        omega
      unfold bfsRun
      exact List.length_eq_zero.mp hq
  | succ n ih =>
      intro st hm
      unfold bfsRun
      by_cases he : st.queue.isEmpty
      · rw [if_pos he]
        exact List.isEmpty_iff.mp he
      · rw [if_neg he]
        refine ih _ ?_
        have hne : st.queue ≠ [] := by
          intro hc
          exact he (by rw [List.isEmpty_iff]; exact hc)
        have := @bfsStep_measure adj st hne
        omega

theorem bfs_correct (adj : List (String × List String)) (ref : String)
    (v : String) :
    (∀ k, mget (bfsRun adj
        (bfsMeasure adj { dist := [(ref, 0)], queue := [(ref, 0)] })
        { dist := [(ref, 0)], queue := [(ref, 0)] }).dist v = some k ↔
      (adjReach adj ref k v ∧ ∀ j < k, ¬ adjReach adj ref j v)) ∧
    (mget (bfsRun adj
        (bfsMeasure adj { dist := [(ref, 0)], queue := [(ref, 0)] })
        { dist := [(ref, 0)], queue := [(ref, 0)] }).dist v = none ↔
      ∀ k, ¬ adjReach adj ref k v) := by
  have hinv : BfsInv adj ref (bfsRun adj
      (bfsMeasure adj { dist := [(ref, 0)], queue := [(ref, 0)] })
      { dist := [(ref, 0)], queue := [(ref, 0)] }) :=
    bfsRun_inv _ (BfsInv_init adj ref)
  have hq : (bfsRun adj
      (bfsMeasure adj { dist := [(ref, 0)], queue := [(ref, 0)] })
      { dist := [(ref, 0)], queue := [(ref, 0)] }).queue = [] :=
    bfsRun_empty _ _ (Nat.le_refl _)
  have href : mget (bfsRun adj
      (bfsMeasure adj { dist := [(ref, 0)], queue := [(ref, 0)] })
      { dist := [(ref, 0)], queue := [(ref, 0)] }).dist ref = some 0 := by
    refine bfsRun_mget _ ?_
    unfold mget
    rw [List.find?_cons_of_pos _ (by simp)]
    rfl
  have hcomp : ∀ n w, adjReach adj ref n w → ∃ e, mget (bfsRun adj
      (bfsMeasure adj { dist := [(ref, 0)], queue := [(ref, 0)] })
      { dist := [(ref, 0)], queue := [(ref, 0)] }).dist w = some e ∧ e ≤ n := by
    intro n
    induction n with
    | zero =>
        intro w hw
        rw [adjReach_zero] at hw
        rw [hw]
        exact ⟨0, href, Nat.le_refl 0⟩
    | succ n ih =>
        intro w hw
        rw [adjReach_succ] at hw
        rcases hw with hw | ⟨u, hu, hnb⟩
        · rcases ih w hw with ⟨e, he, hle⟩
          exact ⟨e, he, Nat.le_succ_of_le hle⟩
        · rcases ih u hu with ⟨du, hdu, hule⟩
          have humem := mget_mem hdu
          rcases hinv.closure (u, du) humem with hq' | hcl
          · rw [hq] at hq'
            exact absurd hq' (List.not_mem_nil _)
          · rcases hcl w hnb with ⟨e, he, hele⟩
            exact ⟨e, he, Nat.le_trans hele (Nat.succ_le_succ hule)⟩
  constructor
  · intro k
    constructor
    · intro h
      refine ⟨hinv.sound (v, k) (mget_mem h), ?_⟩
      intro j hj hreach
      rcases hcomp j v hreach with ⟨e, he, hele⟩
      rw [h] at he
      have : e = k := by
        have := Option.some.inj he
        omega
      omega
    · rintro ⟨hr, hmin⟩
      rcases hcomp k v hr with ⟨e, he, hele⟩
      have hek : e = k := by
        by_cases hlt : e < k
        · exact absurd (hinv.sound (v, e) (mget_mem he)) (hmin e hlt)
        · omega
      rw [← hek]
      exact he
  · constructor
    · intro h k hreach
      rcases hcomp k v hreach with ⟨e, he, _⟩
      rw [h] at he
      exact absurd he (by simp)
    · intro hall
      cases hm : mget (bfsRun adj
          (bfsMeasure adj { dist := [(ref, 0)], queue := [(ref, 0)] })
          { dist := [(ref, 0)], queue := [(ref, 0)] }).dist v with
      | none => rfl
      | some e =>
          exact absurd (hinv.sound (v, e) (mget_mem hm)) (hall e)

theorem mget_cons_eq {α : Type} {a x : String} (b : α) (m : List (String × α))
    (h : a = x) : mget ((a, b) :: m) x = some b := by
  unfold mget
  rw [List.find?_cons_of_pos _ (by simp [h])]
  rfl

theorem mget_cons_ne {α : Type} {a x : String} (b : α) (m : List (String × α))
    (h : ¬ a = x) : mget ((a, b) :: m) x = mget m x := by
  unfold mget
  rw [List.find?_cons_of_neg _ (by simp [h])]

theorem mget_mupdate_ne {α : Type} {k x : String} (hx : ¬ x = k) (f : α → α) :
    ∀ m : List (String × α), mget (mupdate m k f) x = mget m x := by
  intro m
  induction m with
  | nil => rfl
  | cons p ps ih =>
      obtain ⟨a, b⟩ := p
      show mget ((if (a == k) = true then (a, f b) else (a, b)) :: mupdate ps k f) x = _
      by_cases hak : a = k
      · rw [if_pos (by simp [hak])]
        have hax : ¬ a = x := by rw [hak]; exact fun hc => hx hc.symm
        rw [mget_cons_ne _ _ hax, mget_cons_ne _ _ hax, ih]
      · rw [if_neg (by simp [hak])]
        by_cases hax : a = x
        · rw [mget_cons_eq _ _ hax, mget_cons_eq _ _ hax]
        · rw [mget_cons_ne _ _ hax, mget_cons_ne _ _ hax, ih]

theorem mget_mupdate_eq {α : Type} (k : String) (f : α → α) :
    ∀ m : List (String × α), mget (mupdate m k f) k = (mget m k).map f := by
  intro m
  induction m with
  | nil => rfl
  | cons p ps ih =>
      obtain ⟨a, b⟩ := p
      show mget ((if (a == k) = true then (a, f b) else (a, b)) :: mupdate ps k f) k = _
      by_cases hak : a = k
      · rw [if_pos (by simp [hak]), mget_cons_eq _ _ hak, mget_cons_eq _ _ hak]
        rfl
      · rw [if_neg (by simp [hak]), mget_cons_ne _ _ hak, mget_cons_ne _ _ hak, ih]

theorem adjAdd_eq (m : List (String × List String)) (k v : String) :
    adjAdd m k v = if mhas m k = true then
      mupdate m k (fun s => if v ∈ s then s else s ++ [v]) else m := rfl

theorem adjAdd_mhas (m : List (String × List String)) (k v x : String) :
    mhas (adjAdd m k v) x = mhas m x := by
  rw [adjAdd_eq]
  by_cases h : mhas m k = true
  · rw [if_pos h, mhas_mupdate]
  · rw [if_neg h]

theorem mem_adjAdd_iff {m : List (String × List String)} {k v u w : String}
    (hk : mhas m k = true) :
    (w ∈ (mget (adjAdd m k v) u).getD []) ↔
      (w ∈ (mget m u).getD [] ∨ (u = k ∧ w = v)) := by
  rw [adjAdd_eq, if_pos hk]
  by_cases hu : u = k
  · subst hu
    rw [mget_mupdate_eq]
    rcases mhas_mget hk with ⟨s, hs⟩
    rw [hs]
    show w ∈ (if v ∈ s then s else s ++ [v]) ↔ (w ∈ s ∨ (u = u ∧ w = v))
    by_cases hv : v ∈ s
    · rw [if_pos hv]
      constructor
      · intro hw
        exact Or.inl hw
      · rintro (hw | ⟨-, rfl⟩)
        · exact hw
        · exact hv
    · rw [if_neg hv, List.mem_append, List.mem_singleton]
      constructor
      · rintro (hw | rfl)
        · exact Or.inl hw
        · exact Or.inr ⟨rfl, rfl⟩
      · rintro (hw | ⟨-, rfl⟩)
        · exact Or.inl hw
        · exact Or.inr rfl
  · rw [mget_mupdate_ne hu]
    simp [hu]

theorem base_vals (nodes : List GraphNode) :
    ∀ p ∈ nodes.foldl (fun m n => mset m n.id []) [], p.2 = ([] : List String) := by
  refine foldl_inv (P := fun m : List (String × List String) => ∀ p ∈ m, p.2 = []) ?_ ?_
  · intro p hp
    exact absurd hp (List.not_mem_nil p)
  · intro m n hm hn p hp
    rcases mem_mset hp with h | h
    · exact hm p h
    · rw [h]

theorem base_empty (nodes : List GraphNode) (u : String) :
    (mget (nodes.foldl (fun m n => mset m n.id ([] : List String)) []) u).getD [] = [] := by
  cases hm : mget (nodes.foldl (fun m n => mset m n.id ([] : List String)) []) u with
  | none => rfl
  | some s => exact base_vals nodes (u, s) (mget_mem hm)

theorem mhas_mset_iff {α : Type} {m : List (String × α)} {k x : String} {v : α} :
    mhas (mset m k v) x = true ↔ (mhas m x = true ∨ x = k) := by
  constructor
  · intro h
    rcases mhas_iff_mem.mp h with ⟨p, hp, hpx⟩
    rcases mem_mset hp with hm | he
    · exact Or.inl (mhas_iff_mem.mpr ⟨p, hm, hpx⟩)
    · rw [he] at hpx
      exact Or.inr hpx.symm
  · rintro (h | rfl)
    · exact mhas_mset_mono h
    · exact mhas_mset_self m x v

theorem base_mhas (x : String) :
    ∀ (nodes : List GraphNode) (m : List (String × List String)),
      mhas (nodes.foldl (fun m n => mset m n.id []) m) x = true ↔
        (mhas m x = true ∨ x ∈ nodes.map (fun n => n.id)) := by
  intro nodes
  induction nodes with
  | nil =>
      intro m
      simp
  | cons n ns ih =>
      intro m
      rw [List.foldl_cons, ih (mset m n.id []), mhas_mset_iff, List.map_cons,
        List.mem_cons]
      tauto

theorem adjFold_char (nodes : List GraphNode) :
    ∀ (links : List GraphLink) (m : List (String × List String)),
      (∀ x, mhas m x = true ↔ x ∈ nodes.map (fun n => n.id)) →
      (∀ l ∈ links, l.source ∈ nodes.map (fun n => n.id) ∧
          l.target ∈ nodes.map (fun n => n.id)) →
      ∀ u w,
        w ∈ (mget (links.foldl
            (fun m l => adjAdd (adjAdd m l.source l.target) l.target l.source)
            m) u).getD [] ↔
          (w ∈ (mget m u).getD [] ∨
            ∃ l ∈ links,
              (l.source = u ∧ l.target = w) ∨ (l.source = w ∧ l.target = u)) := by
  intro links
  induction links with
  | nil =>
      intro m hm hnd u w
      simp
  | cons l ls ih =>
      intro m hm hnd u w
      rw [List.foldl_cons]
      have hks : mhas m l.source = true :=
        (hm l.source).mpr (hnd l (List.mem_cons_self _ _)).1
      have hkt1 : mhas (adjAdd m l.source l.target) l.target = true := by
        rw [adjAdd_mhas]
        exact (hm l.target).mpr (hnd l (List.mem_cons_self _ _)).2
      have hm1 : ∀ x,
          mhas (adjAdd (adjAdd m l.source l.target) l.target l.source) x = true ↔
            x ∈ nodes.map (fun n => n.id) := by
        intro x
        rw [adjAdd_mhas, adjAdd_mhas]
        exact hm x
      rw [ih _ hm1 (fun l2 h2 => hnd l2 (List.mem_cons_of_mem _ h2)) u w,
        mem_adjAdd_iff hkt1, mem_adjAdd_iff hks, List.exists_mem_cons_iff]
      constructor
      · rintro (((hA | ⟨hu, hw⟩) | ⟨hu, hw⟩) | hD)
        · exact Or.inl hA
        · exact Or.inr (Or.inl (Or.inl ⟨hu.symm, hw.symm⟩))
        · exact Or.inr (Or.inl (Or.inr ⟨hw.symm, hu.symm⟩))
        · exact Or.inr (Or.inr hD)
      · rintro (hA | (⟨hs, ht⟩ | ⟨hs, ht⟩) | hD)
        · exact Or.inl (Or.inl (Or.inl hA))
        · exact Or.inl (Or.inl (Or.inr ⟨hs.symm, ht.symm⟩))
        · exact Or.inl (Or.inr ⟨ht.symm, hs.symm⟩)
        · exact Or.inr hD

theorem adjBuild_iff {nodes : List GraphNode} {links : List GraphLink}
    (hnd : ∀ l ∈ links, l.source ∈ nodes.map (fun n => n.id) ∧
        l.target ∈ nodes.map (fun n => n.id)) (u w : String) :
    w ∈ (mget (adjBuild nodes links) u).getD [] ↔ linkAdj links u w := by
  unfold adjBuild
  dsimp only
  rw [adjFold_char nodes links (nodes.foldl (fun m n => mset m n.id []) [])
    (fun x => by rw [base_mhas x nodes []]; simp [mhas]) hnd u w, base_empty]
  simp only [List.not_mem_nil, false_or]
  exact Iff.rfl

theorem adjReach_iff_linkReach {nodes : List GraphNode} {links : List GraphLink}
    (hnd : ∀ l ∈ links, l.source ∈ nodes.map (fun n => n.id) ∧
        l.target ∈ nodes.map (fun n => n.id)) (r : String) :
    ∀ (n : Nat) (v : String),
      adjReach (adjBuild nodes links) r n v ↔ linkReach links r n v := by
  intro n
  induction n with
  | zero =>
      intro v
      exact Iff.rfl
  | succ n ih =>
      intro v
      rw [adjReach_succ, linkReach_succ]
      constructor
      · rintro (h | ⟨u, hu, hnb⟩)
        · exact Or.inl ((ih v).mp h)
        · exact Or.inr ⟨u, (ih u).mp hu, (adjBuild_iff hnd u v).mp hnb⟩
      · rintro (h | ⟨u, hu, hadj⟩)
        · exact Or.inl ((ih v).mpr h)
        · exact Or.inr ⟨u, (ih u).mpr hu, (adjBuild_iff hnd u v).mpr hadj⟩

theorem calcDeg_correct {nodes : List GraphNode} {links : List GraphLink}
    {r : String}
    (hnd : ∀ l ∈ links, l.source ∈ nodes.map (fun n => n.id) ∧
        l.target ∈ nodes.map (fun n => n.id)) :
    ∀ n ∈ calculateDegreesOfSeparation nodes links r,
      (∀ k, n.degreesFromRoot = some k ↔
        (linkReach links r k n.id ∧ ∀ j < k, ¬ linkReach links r j n.id)) ∧
      (n.degreesFromRoot = none ↔ ∀ k, ¬ linkReach links r k n.id) := by
  intro n hn
  unfold calculateDegreesOfSeparation at hn
  dsimp only at hn
  rcases List.mem_map.mp hn with ⟨n0, hn0, rfl⟩
  have hbfs := bfs_correct (adjBuild nodes links) r n0.id
  have hreach := adjReach_iff_linkReach hnd r
  dsimp only
  constructor
  · intro k
    rw [hbfs.1 k]
    constructor
    · rintro ⟨h1, h2⟩
      exact ⟨(hreach k n0.id).mp h1,
        fun j hj hc => h2 j hj ((hreach j n0.id).mpr hc)⟩
    · rintro ⟨h1, h2⟩
      exact ⟨(hreach k n0.id).mpr h1,
        fun j hj hc => h2 j hj ((hreach j n0.id).mp hc)⟩
  · rw [hbfs.2]
    constructor
    · intro h k hc
      exact h k ((hreach k n0.id).mpr hc)
    · intro h k hc
      exact h k ((hreach k n0.id).mp hc)

theorem analytics_c5 (r : String) (nm : List (String × GraphNode))
    (lm : List (String × GraphLink))
    (hid : ∀ p ∈ nm, p.2.id = p.1)
    (hsrc : ∀ p ∈ lm, mhas nm p.2.source = true)
    (htgt : ∀ p ∈ lm, mhas nm p.2.target = true) :
    (∀ n ∈ (runAnalytics (some r) nm lm).nodes, ∀ k,
        n.degreesFromRoot = some k ↔
          (linkReach (runAnalytics (some r) nm lm).links r k n.id ∧
            ∀ j < k, ¬ linkReach (runAnalytics (some r) nm lm).links r j n.id)) ∧
    (∀ n ∈ (runAnalytics (some r) nm lm).nodes,
        (n.degreesFromRoot = none ↔
          ∀ k, ¬ linkReach (runAnalytics (some r) nm lm).links r k n.id)) ∧
    (∀ n ∈ (runAnalytics (some r) nm lm).nodes,
        n.id = r → n.degreesFromRoot = some 0) := by
  have hn3 : (runAnalytics (some r) nm lm).nodes =
      calculateDegreesOfSeparation
        (assignClusters (hubPass ((degreePass nm (lm.map Prod.snd)).map Prod.snd))
          (bidirPass (lm.map Prod.snd))).nodes
        (bidirPass (lm.map Prod.snd)) r := rfl
  have hl : (runAnalytics (some r) nm lm).links = bidirPass (lm.map Prod.snd) :=
    runAnalytics_links
  have hdeg : ∀ p ∈ degreePass nm (lm.map Prod.snd), p.2.id = p.1 := by
    intro p hp
    rcases degreePass_mem p hp with ⟨q, hq, he1, _, he3⟩
    rw [he3, hid q hq, he1]
  have hbase : ((degreePass nm (lm.map Prod.snd)).map Prod.snd).map (fun n => n.id) =
      nm.map Prod.fst := by
    rw [List.map_map]
    calc ((degreePass nm (lm.map Prod.snd)).map ((fun n => n.id) ∘ Prod.snd))
        = (degreePass nm (lm.map Prod.snd)).map Prod.fst :=
          List.map_congr_left (fun p hp => hdeg p hp)
      _ = nm.map Prod.fst := degreePass_keys _ _
  have hids2 : (assignClusters (hubPass ((degreePass nm (lm.map Prod.snd)).map Prod.snd))
      (bidirPass (lm.map Prod.snd))).nodes.map (fun n => n.id) = nm.map Prod.fst := by
    rw [assignClusters_ids, hubPass_ids, hbase]
  have hnd : ∀ l ∈ bidirPass (lm.map Prod.snd),
      l.source ∈ (assignClusters (hubPass ((degreePass nm (lm.map Prod.snd)).map Prod.snd))
          (bidirPass (lm.map Prod.snd))).nodes.map (fun n => n.id) ∧
      l.target ∈ (assignClusters (hubPass ((degreePass nm (lm.map Prod.snd)).map Prod.snd))
          (bidirPass (lm.map Prod.snd))).nodes.map (fun n => n.id) := by
    intro l hlm
    unfold bidirPass at hlm
    rcases List.mem_map.mp hlm with ⟨l0, hl0, rfl⟩
    rcases List.mem_map.mp hl0 with ⟨p, hp, rfl⟩
    constructor
    · rw [hids2]
      exact mhas_eq_keys_mem.mp (hsrc p hp)
    · rw [hids2]
      exact mhas_eq_keys_mem.mp (htgt p hp)
  refine ⟨?_, ?_, ?_⟩
  · intro n hn k
    rw [hl]
    rw [hn3] at hn
    exact (calcDeg_correct hnd n hn).1 k
  · intro n hn
    rw [hl]
    rw [hn3] at hn
    exact (calcDeg_correct hnd n hn).2
  · intro n hn hr0
    rw [hn3] at hn
    refine ((calcDeg_correct hnd n hn).1 0).mpr ⟨?_, ?_⟩
    · exact linkReach_zero.mpr hr0
    · intro j hj
      exact absurd hj (Nat.not_lt_zero j)

/-- C5: when a reference identity is supplied, a snapshot node is
labelled `degreesFromRoot = some k` exactly when `k` is the least number
of undirected hops from the reference to it over the snapshot's edges,
carries no label exactly when no number of hops reaches it, and the
reference node itself, when present, is labelled 0. -/
theorem C5_distance_labeling (db : List NEvent) (startPubkey : Option String)
    (depth limit : Nat) (r : String) :
    (∀ n ∈ (webOfTrustRun db startPubkey depth limit (some r)).nodes, ∀ k,
        n.degreesFromRoot = some k ↔
          (linkReach (webOfTrustRun db startPubkey depth limit (some r)).links
              r k n.id ∧
            ∀ j < k,
              ¬ linkReach (webOfTrustRun db startPubkey depth limit (some r)).links
                r j n.id)) ∧
    (∀ n ∈ (webOfTrustRun db startPubkey depth limit (some r)).nodes,
        (n.degreesFromRoot = none ↔
          ∀ k, ¬ linkReach (webOfTrustRun db startPubkey depth limit (some r)).links
            r k n.id)) ∧
    (∀ n ∈ (webOfTrustRun db startPubkey depth limit (some r)).nodes,
        n.id = r → n.degreesFromRoot = some 0) := by
  cases startPubkey with
  | none =>
      have hinv : CInv (collectRun db depth (initGlobal db limit)) :=
        collectRun_inv (CInv_initGlobal db limit)
      exact analytics_c5 r _ _ hinv.node_id hinv.link_src hinv.link_tgt
  | some s =>
      have hinv : CInv (collectRun db depth (initRoot s)) :=
        collectRun_inv (CInv_initRoot s)
      exact analytics_c5 r _ _ hinv.node_id hinv.link_src hinv.link_tgt
